import Mathlib

/-!
Verification of the TIFF IFD core of `src/PIL/TiffImagePlugin.py`.

This file shallowly embeds the parts of the plugin that the claims are
about:

* byte-order primitives (`struct.pack` / `struct.unpack` equivalents),
* the `IFDRational` type together with `Fraction.limit_denominator`,
  `_limit_rational` and `_limit_signed_rational`,
* the tag codec registry (`load_string`, `write_string`, the basic
  fixed-width handlers, the rational handlers),
* `ImageFileDirectory_v2._setitem` (auto-typing), `__delitem__`,
  `__contains__` and `tobytes`,
* the multi-page reader cursor (`TiffImageFile._seek` and the `n_frames`
  probe),
* the `AppendingTiffWriter` (`finalize`, `fixIFD`, `_fixOffsets`) over an
  explicit byte-level file model.

Machine integers are modelled as `Nat`/`Int`; `struct.pack` range errors
and Python `TypeError`s surface as `Option`/`Except` failures.  IEEE-754
values appear only as opaque `Float`s: the embedding never needs to reason
about their arithmetic (the one place CPython divides two floats,
`_limit_signed_rational`, is carried out with `Float` division itself).
-/

namespace Tiff

/-! ## Byte-order primitives (`self._pack` / `self._unpack`) -/

/-- Byte order of the file: `<` (little endian) or `>` (big endian). -/
inductive ByteOrder where
  | le
  | be
  deriving DecidableEq, Repr

/-- Little-endian byte list (length `size`) of an unsigned value. -/
def bytesLE (size : Nat) (v : Nat) : List Nat :=
  (List.range size).map fun i => v / 256 ^ i % 256

/-- `struct.pack` of an unsigned integer (`H`/`L`/`Q` and friends): the
value must fit, otherwise `struct.error`. -/
def packU (bo : ByteOrder) (size : Nat) (v : Int) : Option (List Nat) :=
  if 0 ≤ v ∧ v < (2 : Int) ^ (8 * size) then
    some (match bo with
      | .le => bytesLE size v.toNat
      | .be => (bytesLE size v.toNat).reverse)
  else
    none

/-- `struct.pack` of a signed integer (`h`/`l`/`q`/`b`): two's complement. -/
def packS (bo : ByteOrder) (size : Nat) (v : Int) : Option (List Nat) :=
  if -(2 : Int) ^ (8 * size - 1) ≤ v ∧ v < (2 : Int) ^ (8 * size - 1) then
    some (match bo with
      | .le => bytesLE size (v % (2 : Int) ^ (8 * size)).toNat
      | .be => (bytesLE size (v % (2 : Int) ^ (8 * size)).toNat).reverse)
  else
    none

/-- `struct.unpack` of an unsigned integer from exactly `bs` bytes. -/
def unpackU (bo : ByteOrder) (bs : List Nat) : Nat :=
  let le := match bo with
    | .le => bs
    | .be => bs.reverse
  le.foldr (fun b acc => b + 256 * acc) 0

/-- `struct.unpack` of a signed integer (two's complement decode). -/
def unpackS (bo : ByteOrder) (size : Nat) (bs : List Nat) : Int :=
  let u := unpackU bo bs
  if u ≥ 2 ^ (8 * size - 1) then (u : Int) - (2 : Int) ^ (8 * size) else u

/-- `bytes.ljust(width, b"\0")`: left-justify, pad with NULs. -/
def ljust (bs : List Nat) (width : Nat) : List Nat :=
  bs ++ List.replicate (width - bs.length) 0

@[simp] theorem ljust_length_of_le {bs : List Nat} {w : Nat} (h : bs.length ≤ w) :
    (ljust bs w).length = w := by
  simp [ljust]
  omega

/-! ## TIFF type codes (`TiffTags` constants consulted by the core) -/

def BYTE : Nat := 1
def ASCII : Nat := 2
def SHORT : Nat := 3
def LONG : Nat := 4
def RATIONAL : Nat := 5
def SIGNED_BYTE : Nat := 6
def UNDEFINED : Nat := 7
def SIGNED_SHORT : Nat := 8
def SIGNED_LONG : Nat := 9
def SIGNED_RATIONAL : Nat := 10
def FLOAT : Nat := 11
def DOUBLE : Nat := 12
def IFD : Nat := 13
def LONG8 : Nat := 16

def STRIPOFFSETS : Nat := 273

/-! ## Python values stored in a directory

A `PyV` is a Python value as it can sit in `_tags_v2`: an `int`, a `float`,
a `str` (list of code points), `bytes` (list of byte values), an
`IFDRational` (kept as the raw numerator/denominator pair the constructor
received), a tuple, or a `dict` (a nested IFD, keyed by tag id). -/

inductive PyV where
  | int (n : Int)
  | flt (f : Float)
  | str (s : List Nat)
  | byts (b : List Nat)
  | rat (num den : Int)
  | tup (vs : List PyV)
  | dict (entries : List (Nat × PyV))
  deriving Repr

/-! ## `IFDRational` and the denominator limiter -/

/-- `IFDRational`: stores the raw `(numerator, denominator)` pair and
`_val`, which is a `Fraction` (here `Rat`) unless the denominator is 0, in
which case `_val = float("nan")` (here `none`). -/
structure IFDRat where
  numerator : Int
  denominator : Int
  val : Option Rat
  deriving Repr, DecidableEq

/-- Python `Fraction(n, d)` for `d ≠ 0`: normalizes sign and reduces. -/
def pyFraction (n d : Int) : Rat :=
  if d < 0 then mkRat (-n) (-d).toNat else mkRat n d.toNat

/-- `IFDRational.__init__` applied to an integer `value` and an integer
`denominator` (the two-argument form used by the loaders and by
`limit_rational` round-trips). -/
def IFDRat.ofIntPair (n d : Int) : IFDRat :=
  if d = 0 then ⟨n, d, none⟩
  else if d = 1 then ⟨n, d, some (mkRat n 1)⟩
  else ⟨n, d, some (pyFraction n d)⟩

/-- `IFDRational.__init__` applied to a `Fraction` value (one-argument
form): numerator/denominator are taken from the fraction. -/
def IFDRat.ofFraction (q : Rat) : IFDRat :=
  ⟨q.num, q.den, some q⟩

/-- `float.as_integer_ratio()` / `Fraction(float)`: exact rational value of
a finite float, `none` for NaN/infinities (Python raises there). -/
def floatToRat (f : Float) : Option Rat :=
  (f.toRatParts).map fun p => (p.1 : Rat) * (2 : Rat) ^ p.2

/-- `IFDRational.__init__` applied to a `float` value with denominator 1.
`Fraction(value)` raises on NaN/infinity, which surfaces as `none`. -/
def IFDRat.ofFloat (f : Float) : Option IFDRat :=
  (floatToRat f).map IFDRat.ofFraction

/-- One step of the continued-fraction loop of
`fractions.Fraction.limit_denominator` (CPython).  State is
`(p0, q0, p1, q1, n, d)`; the result is the `(p, q)` chosen at the `break`.
The `d ≤ 0` guard is unreachable for real `Fraction` inputs (the loop
always breaks first) and only makes the recursion well-founded. -/
def ldLoop (maxDenominator selfDen : Int) (p0 q0 p1 q1 n d : Int) : Int × Int :=
  if hd : d ≤ 0 then
    let k := (maxDenominator - q0).fdiv q1
    if 2 * d * (q0 + k * q1) ≤ selfDen then (p1, q1) else (p0 + k * p1, q0 + k * q1)
  else
    let a := n.fdiv d
    let q2 := q0 + a * q1
    if q2 > maxDenominator then
      let k := (maxDenominator - q0).fdiv q1
      if 2 * d * (q0 + k * q1) ≤ selfDen then (p1, q1) else (p0 + k * p1, q0 + k * q1)
    else
      ldLoop maxDenominator selfDen p1 q1 (p0 + a * p1) q2 d (n - a * d)
termination_by d.toNat
decreasing_by
  simp only [not_le] at hd
  have h1 : n - n.fdiv d * d = n.fmod d := by
    rw [Int.fmod_def]; ring
  have h2 : n.fmod d < d := Int.fmod_lt_of_pos n hd
  have h3 : 0 ≤ n.fmod d := Int.fmod_nonneg' n hd
  omega

/-- `Fraction.limit_denominator(max_denominator)`: closest fraction with
denominator at most `max_denominator`.  `none` models the `ValueError`
raised when `max_denominator < 1`. -/
def limitDenominator (q : Rat) (maxDenominator : Int) : Option Rat :=
  if maxDenominator < 1 then none
  else if (q.den : Int) ≤ maxDenominator then some q
  else
    let p := ldLoop maxDenominator (q.den : Int) 0 1 1 0 q.num (q.den : Int)
    some (pyFraction p.1 p.2)

/-- `IFDRational.limit_rational(max_denominator)`: `(numerator,
denominator)` unchanged when the denominator is 0, otherwise run
`limit_denominator` on `_val`.  `none` models the `assert` failure /
`ValueError` paths. -/
def IFDRat.limit_rational (r : IFDRat) (maxDenominator : Int) : Option (Int × Int) :=
  if r.denominator = 0 then some (r.numerator, r.denominator)
  else
    match r.val with
    | none => none
    | some q => (limitDenominator q maxDenominator).map fun f => (f.num, (f.den : Int))

/-! ## `_limit_rational` and `_limit_signed_rational` -/

/-- `_limit_rational(val, max_val)`.  `val` may be an `IFDRational`, an
`int` or a `float`.  `inv = abs(val) > 1` (false for NaN); for `inv`,
`1 / val` is exact `Fraction` division when `val` is a `Fraction`, and
IEEE-754 `Float` division when `val` is an `int` or `float` (Python true
division); the resulting pair is reversed. -/
def limit_rational_top (v : PyV) (maxVal : Int) : Option (Int × Int) :=
  match v with
  | .rat n d =>
    let r := IFDRat.ofIntPair n d
    match r.val with
    | none => r.limit_rational maxVal
    | some q =>
      if 1 < |q| then
        (limitDenominator q⁻¹ maxVal).map fun f => ((f.den : Int), f.num)
      else
        (IFDRat.ofFraction q).limit_rational maxVal
  | .int n =>
    if 1 < |n| then do
      let r ← IFDRat.ofFloat ((1 : Float) / Float.ofInt n)
      let p ← r.limit_rational maxVal
      pure (p.2, p.1)
    else
      (IFDRat.ofIntPair n 1).limit_rational maxVal
  | .flt f =>
    if (1 : Float) < f.abs then do
      let r ← IFDRat.ofFloat ((1 : Float) / f)
      let p ← r.limit_rational maxVal
      pure (p.2, p.1)
    else do
      let r ← IFDRat.ofFloat f
      r.limit_rational maxVal
  | _ => none

/-- `_limit_signed_rational(val, max_val, min_val)`.  `Fraction(val)` for a
`Rational` instance copies the raw numerator/denominator pair without
normalizing.  The `float(i)` comparisons are modelled as exact integer
comparisons (exact below 2^53). -/
def limit_signed_rational (r : IFDRat) (maxVal minVal : Int) : Option (Int × Int) := do
  let nd0 : Int × Int := (r.numerator, r.denominator)
  let nd1 ←
    if min nd0.1 nd0.2 < minVal then
      limit_rational_top (.rat r.numerator r.denominator) |minVal|
    else
      pure nd0
  if max nd1.1 nd1.2 > maxVal then
    limit_rational_top (.flt (Float.ofInt nd1.1 / Float.ofInt nd1.2)) maxVal
  else
    pure nd1

/-! ## Tag codec registry -/

/-- Python `str(n)` for an integer, as ASCII code points. -/
def strOfInt (n : Int) : List Nat :=
  (toString n).toList.map Char.toNat

/-- `value.encode("ascii", "replace")`: code points ≥ 128 become `?`. -/
def encodeAsciiReplace (s : List Nat) : List Nat :=
  s.map fun c => if c < 128 then c else 63

/-- `ImageFileDirectory_v2.load_string`: strip one trailing NUL if present,
then decode as Latin-1 (identity on byte values). -/
def load_string (data : List Nat) : List Nat :=
  if data.getLast? = some 0 then data.dropLast else data

/-- `ImageFileDirectory_v2.write_string`: an `int` is converted with
`str`, a non-`bytes` value is encoded as ASCII with replacement, and one
NUL byte is appended.  Values with no `encode` raise (`none`). -/
def write_string (v : PyV) : Option (List Nat) :=
  match v with
  | .int n => some (encodeAsciiReplace (strOfInt n) ++ [0])
  | .str s => some (encodeAsciiReplace s ++ [0])
  | .byts b => some (b ++ [0])
  | _ => none

/-- `int(IFDRational)`: truncation toward zero of the exact value;
`ValueError` (`none`) on the NaN pair. -/
def IFDRat.toInt (r : IFDRat) : Option Int :=
  r.val.map fun q => q.num.tdiv (q.den : Int)

/-- `ImageFileDirectory_v2.write_byte`: accepts `bytes`, an `int` in
`[0, 256)` (via `bytes((data,))`) or an `IFDRational` converted with
`int`. -/
def write_byte (v : PyV) : Option (List Nat) :=
  match v with
  | .byts b => some b
  | .int n => if 0 ≤ n ∧ n < 256 then some [n.toNat] else none
  | .rat n d => do
    let m ← (IFDRat.ofIntPair n d).toInt
    if 0 ≤ m ∧ m < 256 then some [m.toNat] else none
  | _ => none

/-- `ImageFileDirectory_v2.write_undefined`: an `IFDRational` becomes an
`int`, an `int` becomes its decimal string encoded as ASCII, and `bytes`
pass through. -/
def write_undefined (v : PyV) : Option (List Nat) :=
  match v with
  | .byts b => some b
  | .int n => some (encodeAsciiReplace (strOfInt n))
  | .rat n d => do
    let m ← (IFDRat.ofIntPair n d).toInt
    pure (encodeAsciiReplace (strOfInt m))
  | _ => none

/-- `ImageFileDirectory_v2.write_rational`: each value goes through
`_limit_rational(frac, 2**32 - 1)` and is packed as two unsigned longs. -/
def write_rational (bo : ByteOrder) (vs : List PyV) : Option (List Nat) :=
  (vs.mapM fun v => do
    let p ← limit_rational_top v ((2 : Int) ^ 32 - 1)
    let a ← packU bo 4 p.1
    let b ← packU bo 4 p.2
    pure (a ++ b)).map List.flatten

/-- `ImageFileDirectory_v2.write_signed_rational`: each value goes through
`_limit_signed_rational(frac, 2**31 - 1, -(2**31))` and is packed as two
signed longs.  Only `IFDRational` values are accepted (`Fraction(val)`
requires a `Rational`). -/
def write_signed_rational (bo : ByteOrder) (vs : List PyV) : Option (List Nat) :=
  (vs.mapM fun v =>
    match v with
    | PyV.rat n d => do
      let p ← limit_signed_rational (IFDRat.ofIntPair n d) ((2 : Int) ^ 31 - 1) (-(2 : Int) ^ 31)
      let a ← packS bo 4 p.1
      let b ← packS bo 4 p.2
      pure (a ++ b)
    | _ => none).map List.flatten

/-- One fixed-width basic value (`_register_basic` writer body). -/
def writeBasicOne (bo : ByteOrder) (size : Nat) (signed : Bool) (v : PyV) : Option (List Nat) :=
  match v with
  | .int n => if signed then packS bo size n else packU bo size n
  | _ => none

/-- The basic writer: `b"".join(self._pack(fmt, value) for value in values)`. -/
def writeBasic (bo : ByteOrder) (size : Nat) (signed : Bool) (vs : List PyV) : Option (List Nat) :=
  (vs.mapM (writeBasicOne bo size signed)).map List.flatten

/-- `self._write_dispatch[typ](self, *values)`: the writer table.  `BYTE`,
`ASCII` and `UNDEFINED` writers take a single argument, so more than one
value is a `TypeError`.  The `FLOAT` writer (binary32 rounding) and the
binary64 bit-level encoding of `DOUBLE` are not modelled (`none`). -/
def writeDispatch (bo : ByteOrder) (typ : Nat) (vs : List PyV) : Option (List Nat) :=
  if typ = BYTE then match vs with | [v] => write_byte v | _ => none
  else if typ = ASCII then match vs with | [v] => write_string v | _ => none
  else if typ = SHORT then writeBasic bo 2 false vs
  else if typ = LONG then writeBasic bo 4 false vs
  else if typ = RATIONAL then write_rational bo vs
  else if typ = SIGNED_BYTE then writeBasic bo 1 true vs
  else if typ = UNDEFINED then match vs with | [v] => write_undefined v | _ => none
  else if typ = SIGNED_SHORT then writeBasic bo 2 true vs
  else if typ = SIGNED_LONG then writeBasic bo 4 true vs
  else if typ = SIGNED_RATIONAL then write_signed_rational bo vs
  else if typ = IFD then writeBasic bo 4 false vs
  else if typ = LONG8 then writeBasic bo 8 false vs
  else none

/-- Recursion engine for `chunksOf` (gas-indexed so that it is structural;
`gas = bs.length` always suffices). -/
def chunksGo (size : Nat) : Nat → List Nat → List (List Nat)
  | 0, _ => []
  | _, [] => []
  | gas + 1, bs => bs.take size :: chunksGo size gas (bs.drop size)

/-- Split into chunks of `size` bytes (helper for the basic loaders). -/
def chunksOf (size : Nat) (bs : List Nat) : List (List Nat) :=
  if size = 0 then [] else chunksGo size bs.length bs

/-- The basic loader: `self._unpack(f"{len(data) // size}{fmt}", data)`.
`struct.unpack` demands that the buffer length is an exact multiple of the
unit size. -/
def loadBasic (bo : ByteOrder) (size : Nat) (signed : Bool) (data : List Nat) : Option (List Int) :=
  if size ≠ 0 ∧ data.length % size = 0 then
    some ((chunksOf size data).map fun c =>
      if signed then unpackS bo size c else (unpackU bo c : Int))
  else
    none

/-- `self._load_dispatch[typ]` restricted to the integer-valued types
(the ones a `StripOffsets`-style tag can carry); the byte/string/rational
and IEEE-754 loaders are not needed by any claim and yield `none` here
(adding an integer offset to their values raises in the source anyway). -/
def loadDispatchInts (bo : ByteOrder) (typ : Nat) (data : List Nat) : Option (List Int) :=
  if typ = SHORT then loadBasic bo 2 false data
  else if typ = LONG then loadBasic bo 4 false data
  else if typ = SIGNED_BYTE then loadBasic bo 1 true data
  else if typ = SIGNED_SHORT then loadBasic bo 2 true data
  else if typ = SIGNED_LONG then loadBasic bo 4 true data
  else if typ = IFD then loadBasic bo 4 false data
  else if typ = LONG8 then loadBasic bo 8 false data
  else none

/-! ## `ImageFileDirectory_v2._setitem` -/

/-- The slice of a `TiffTags.TagInfo` record that `_setitem` consults: the
dictionary type (`info.type`), the expected length (`info.length`) and the
enum table behind `info.cvt_enum`.  The tag dictionary itself is an
external collaborator, so it is a parameter of the embedding. -/
structure TagInfo where
  type : Option Nat
  length : Option Nat
  enum : List (List Nat × Int)

/-- `TiffTags.lookup(tag, group)`, abstractly: a group-aware info table. -/
def TagLookup := Option Nat → Nat → TagInfo

/-- The shape of the local variable `values` in `_setitem`: either a list
(from a scalar or a tuple) or a still-unexploded `dict`. -/
inductive VShape where
  | lst (vs : List PyV)
  | dct (l : List (Nat × PyV))

/-- `values = [value] if isinstance(value, basetypes) else value`:
`Number`, `bytes` and `str` instances are wrapped in a singleton. -/
def valuesOf (v : PyV) : VShape :=
  match v with
  | .tup vs => .lst vs
  | .dict l => .dct l
  | v => .lst [v]

/-- Iterating `values`: a list yields its elements, a dict yields its keys
(which are tag numbers, i.e. `int`s). -/
def vshapeElems : VShape → List PyV
  | .lst vs => vs
  | .dct l => l.map fun p => PyV.int p.1

def isIFDRationalV : PyV → Bool
  | .rat _ _ => true
  | _ => false

def isIntV : PyV → Bool
  | .int _ => true
  | _ => false

def isFloatV : PyV → Bool
  | .flt _ => true
  | _ => false

def isStrV : PyV → Bool
  | .str _ => true
  | _ => false

def isBytesV : PyV → Bool
  | .byts _ => true
  | _ => false

def isDictV : PyV → Bool
  | .dict _ => true
  | _ => false

/-- `v < 0` on an `IFDRational` delegates to `_val`; NaN compares false. -/
def ratNegV : PyV → Bool
  | .rat n d =>
    match (IFDRat.ofIntPair n d).val with
    | some q => decide (q < 0)
    | none => false
  | _ => false

def intOf : PyV → Int
  | .int n => n
  | _ => 0

/-- The auto-typing chain of `_setitem` for a tag with no dictionary type:
rationals first (SRATIONAL when any value is negative), then the
short/signed-short/long flag loop over integers, then floats, strings and
bytes; otherwise the type stays UNDEFINED. -/
def inferAutoType (elems : List PyV) : Nat :=
  if elems.all isIFDRationalV then
    if elems.any ratNegV then SIGNED_RATIONAL else RATIONAL
  else if elems.all isIntV then
    let fl := elems.foldl
      (fun fl v =>
        (fl.1 && decide (0 ≤ intOf v ∧ intOf v < 2 ^ 16),
         fl.2.1 && decide (-(2 ^ 15) < intOf v ∧ intOf v < 2 ^ 15),
         fl.2.2 && decide (0 ≤ intOf v)))
      (true, true, true)
    if fl.1 then SHORT
    else if fl.2.1 then SIGNED_SHORT
    else if fl.2.2 then LONG
    else SIGNED_LONG
  else if elems.all isFloatV then DOUBLE
  else if elems.all isStrV then ASCII
  else if elems.all isBytesV then BYTE
  else UNDEFINED

/-- `info.cvt_enum(value)` applied to the string values of the tuple. -/
def cvtEnum (info : TagInfo) (v : PyV) : PyV :=
  match v with
  | .str s => ((info.enum.find? fun p => p.1 = s).map fun p => PyV.int p.2).getD (.str s)
  | v => v

/-- UNDEFINED normalization: strings are encoded as ASCII with replacement. -/
def applyUndefEncode (v : PyV) : PyV :=
  match v with
  | .str s => .byts (encodeAsciiReplace s)
  | v => v

/-- RATIONAL normalization: integers are converted to floats. -/
def applyRatFloat (v : PyV) : PyV :=
  match v with
  | .int n => .flt (Float.ofInt n)
  | v => v

/-- `_setitem` for one tag: given the tag's info record, the previously
recorded `tagtype` entry (if any) and the incoming value, produce the
`(tagtype, stored value)` pair that lands in `tagtype` / `_tags_v2`
(or `_tags_v1` when `legacy`).  `none` models the `IndexError` on an empty
value for a single-entry tag. -/
def setitemOne (info : TagInfo) (legacy : Bool) (prevTyp : Option Nat) (value : PyV) :
    Option (Nat × PyV) :=
  let values := valuesOf value
  let typ :=
    match prevTyp with
    | some t => t
    | none =>
      match info.type with
      | some t => t
      | none => inferAutoType (vshapeElems values)
  let values : VShape :=
    if typ = UNDEFINED then .lst ((vshapeElems values).map applyUndefEncode)
    else if typ = RATIONAL then .lst ((vshapeElems values).map applyRatFloat)
    else values
  let is_ifd : Bool := typ = LONG && (match values with | .dct _ => true | .lst _ => false)
  let values : VShape :=
    if is_ifd then values else .lst ((vshapeElems values).map (cvtEnum info))
  let elems := vshapeElems values
  if !is_ifd &&
      (info.length = some 1 || typ = BYTE ||
        (info.length = none && elems.length = 1 && !legacy)) then
    let elems :=
      if legacy && (typ = RATIONAL || typ = SIGNED_RATIONAL) then [PyV.tup elems]
      else elems
    match elems with
    | [] => none
    | v :: _ => some (typ, v)
  else
    some (typ, match values with | .dct l => .dict l | .lst vs => .tup vs)

/-- The joint `tagtype` / `_tags_v2` storage of a directory, as one
association list of `(tag, tagtype[tag], _tags_v2[tag])` triples (the save
path only touches tags present in both dicts). -/
abbrev Store := List (Nat × Nat × PyV)

/-- `ifd[tag] = value` for a v2 directory: keep the previously recorded
type if the tag is already present, store the normalized value. -/
def storeSet (look : Nat → TagInfo) (legacy : Bool) (store : Store) (tag : Nat) (value : PyV) :
    Option Store :=
  let prevTyp := (store.find? fun e => e.1 = tag).map fun e => e.2.1
  (setitemOne (look tag) legacy prevTyp value).map fun tv =>
    if (store.find? fun e => e.1 = tag).isSome then
      store.map fun e => if e.1 = tag then (tag, tv.1, tv.2) else e
    else
      store ++ [(tag, tv.1, tv.2)]

/-! ## `ImageFileDirectory_v2.tobytes` -/

/-- Byte order and container flavour of a directory. -/
structure IFDCfg where
  bo : ByteOrder
  bigtiff : Bool

/-- The inline value slot: 4 bytes classic, 8 bytes BigTIFF. -/
def IFDCfg.fmtSize (c : IFDCfg) : Nat := if c.bigtiff then 8 else 4

/-- One directory entry on disk: 12 bytes classic, 20 bytes BigTIFF. -/
def IFDCfg.entrySize (c : IFDCfg) : Nat := if c.bigtiff then 20 else 12

/-- The entry-count header: `H` classic, `Q` BigTIFF. -/
def IFDCfg.countSize (c : IFDCfg) : Nat := if c.bigtiff then 8 else 2

/-- An element of the `entries` list built by pass 1 of `tobytes`:
`(tag, type, count, value-or-offset bytes, auxiliary data)`. -/
structure DirEntry where
  tag : Nat
  typ : Nat
  count : Nat
  value : List Nat
  data : List Nat
  deriving Repr, DecidableEq

/-- Stable insertion into a key-sorted store. -/
def insertKey (e : Nat × Nat × PyV) : Store → Store
  | [] => [e]
  | x :: xs => if e.1 ≤ x.1 then e :: x :: xs else x :: insertKey e xs

/-- `sorted(self._tags_v2.items())`: a stable sort ascending by tag id
(keys of a Python dict are unique, so the tuple comparison never reaches
the values). -/
def sortStore : Store → Store
  | [] => []
  | e :: xs => insertKey e (sortStore xs)

/-- `struct.pack("…s")`: truncate or NUL-pad to the field width. -/
def fmtS (width : Nat) (bs : List Nat) : List Nat :=
  ljust (bs.take width) width

/-- The payload of one tag in pass 1 of `tobytes`: a nested dict under a
LONG type serializes a fresh sub-IFD (same header, `group=tag`) at the
running offset (via the callback `subT`, which is the next recursion layer
of `tobytes`); anything else goes through the writer dispatch on the
tuple-normalized value. -/
def encodeOne (tl : TagLookup) (cfg : IFDCfg) (subT : Store → Nat → Option (List Nat))
    (tag typ : Nat) (v : PyV) (offset : Nat) : Option (List Nat) :=
  if typ = LONG then
    match v with
    | .dict l => do
      let subStore ← l.foldlM (fun st p => storeSet (tl (some tag)) false st p.1 p.2)
        ([] : Store)
      subT subStore offset
    | v => writeDispatch cfg.bo typ (match v with | .tup vs => vs | v => [v])
  else
    writeDispatch cfg.bo typ (match v with | .tup vs => vs | v => [v])

/-- The `count` field of one entry: 1 for a nested IFD, the byte length
for BYTE/ASCII/UNDEFINED, the number of values otherwise. -/
def pass1count (typ : Nat) (v : PyV) (data : List Nat) : Nat :=
  let values := match v with | .tup vs => vs | v => [v]
  let is_ifd : Bool := typ = LONG && isDictV v
  if is_ifd then 1
  else if typ = BYTE ∨ typ = ASCII ∨ typ = UNDEFINED then data.length
  else values.length

/-- Pass 1 of `tobytes` over the sorted tag list: encode each payload,
store it inline (left-aligned, NUL-padded) when it fits the slot, else
record the running offset and queue the payload as auxiliary data,
advancing the offset by the word-padded length. -/
def pass1 (cfg : IFDCfg) (enc : Nat → Nat → PyV → Nat → Option (List Nat)) :
    Store → Nat → Option (List DirEntry × Nat)
  | [], offset => some ([], offset)
  | (tag, typ, v) :: rest, offset => do
    let data ← enc tag typ v offset
    let count := pass1count typ v data
    if data.length ≤ cfg.fmtSize then do
      let (es, e) ← pass1 cfg enc rest offset
      pure ((⟨tag, typ, count, ljust data cfg.fmtSize, []⟩ : DirEntry) :: es, e)
    else do
      let value ← packU cfg.bo cfg.fmtSize offset
      let (es, e) ← pass1 cfg enc rest (offset + (data.length + 1) / 2 * 2)
      pure ((⟨tag, typ, count, value, data⟩ : DirEntry) :: es, e)

/-- `ImageFileDirectory_v2.tobytes(offset)`, with the sub-IFD recursion
abstracted into `subT`: entry-count header, pass 1, the `STRIPOFFSETS`
patch (add the end-of-IFD offset to each strip offset), pass 2 (the entry
table), the zero next-IFD pointer, pass 3 (the word-padded auxiliary
data). -/
def tobytesBody (tl : TagLookup) (cfg : IFDCfg) (subT : Store → Nat → Option (List Nat))
    (store : Store) (offset : Nat) : Option (List Nat) := do
  let head ← packU cfg.bo cfg.countSize store.length
  let (entries, offEnd) ← pass1 cfg (encodeOne tl cfg subT) (sortStore store)
    (offset + head.length + store.length * cfg.entrySize + cfg.fmtSize)
  let entries ←
    match (sortStore store).findIdx? fun e => e.1 = STRIPOFFSETS with
    | none => pure entries
    | some i =>
      match entries[i]? with
      | none => none
      | some e =>
        if e.data ≠ [] then do
          let vals ← loadDispatchInts cfg.bo e.typ e.data
          let data ← writeDispatch cfg.bo e.typ (vals.map fun v => PyV.int (v + (offEnd : Int)))
          pure (entries.set i { e with data := data })
        else do
          let value ← packU cfg.bo cfg.fmtSize (unpackU cfg.bo e.value + offEnd)
          pure (entries.set i { e with value := value })
  let result ← entries.foldlM
    (fun acc e => do
      let t ← packU cfg.bo 2 e.tag
      let ty ← packU cfg.bo 2 e.typ
      let c ← packU cfg.bo cfg.fmtSize e.count
      pure (acc ++ t ++ ty ++ c ++ fmtS cfg.fmtSize e.value))
    head
  let z ← packU cfg.bo cfg.fmtSize 0
  pure (entries.foldl
    (fun acc e => acc ++ e.data ++ (if e.data.length % 2 = 1 then [0] else []))
    (result ++ z))

/-- `tobytes`, indexed by the maximal nesting depth of sub-IFD dicts that
may still be serialized (the source recurses without an explicit bound; a
dict met at depth `fuel` fails with `none`, and every claim is proved for
all `fuel`). -/
def tobytes (tl : TagLookup) (cfg : IFDCfg) : Nat → Store → Nat → Option (List Nat)
  | 0 => tobytesBody tl cfg fun _ _ => none
  | fuel + 1 => tobytesBody tl cfg (tobytes tl cfg fuel)

/-! ## `__delitem__` / `__contains__` -/

/-- The three tag stores of an `ImageFileDirectory_v2`: decoded values
(`_tags_v2`), legacy decoded values (`_tags_v1`) and raw byte payloads
(`_tagdata`). -/
structure DirStores where
  tags_v2 : List (Nat × PyV)
  tags_v1 : List (Nat × PyV)
  tagdata : List (Nat × List Nat)

/-- `__delitem__`: `pop(tag, None)` on all three stores (no `KeyError`). -/
def delitem (d : DirStores) (tag : Nat) : DirStores where
  tags_v2 := d.tags_v2.filter fun e => e.1 ≠ tag
  tags_v1 := d.tags_v1.filter fun e => e.1 ≠ tag
  tagdata := d.tagdata.filter fun e => e.1 ≠ tag

/-- `__contains__`: `tag in self._tags_v2 or tag in self._tagdata`. -/
def containsTag (d : DirStores) (tag : Nat) : Bool :=
  d.tags_v2.any (fun e => e.1 = tag) || d.tagdata.any (fun e => e.1 = tag)

/-! ## Multi-page reader cursor (`TiffImageFile._seek`, `n_frames`)

The file is abstracted to the partial map `offset ↦ next-IFD offset` of its
well-formed IFDs (`TiffDoc`): `tag_v2.load` at a well-formed offset sets
`tag_v2.next` to the recorded value, while loading at any other offset
aborts with a warning and leaves `tag_v2.next` unchanged (`load` assigns
`self.next` only on success, and `reset` does not clear it). -/

abbrev TiffDoc := List (Nat × Nat)

/-- Effect of `self.tag_v2.load(self.fp)` at offset `off` on
`self.tag_v2.next` (`cur` is its current, possibly stale, value). -/
def loadNext (doc : TiffDoc) (off cur : Nat) : Nat :=
  (((doc.find? fun e => e.1 = off).map fun e => e.2).getD cur)

/-- The reader's frame cursor: `_frame_pos`, `__next`, `tag_v2.next`,
`_n_frames` and `__frame` (the `-1` before the initial `_seek(0)` is never
observable, so the frame number is a `Nat`). -/
structure FrameCursor where
  frame_pos : List Nat
  next : Nat
  tagNext : Nat
  nFrames : Option Nat
  frame : Nat
  deriving Repr, DecidableEq

inductive SeekErr where
  | eofError
  | valueError
  deriving Repr, DecidableEq

/-- One iteration of the `while len(self._frame_pos) <= frame` loop body
after its two error checks: append `__next`, load the IFD there, zero the
next pointer when it revisits a recorded position (recording the total
frame count), else follow it. -/
def seekStep (doc : TiffDoc) (st : FrameCursor) (frame : Nat) : FrameCursor :=
  let fp := st.frame_pos ++ [st.next]
  let tn := loadNext doc st.next st.tagNext
  let nxt := if tn ∈ fp then 0 else tn
  { frame_pos := fp
    next := nxt
    tagNext := tn
    nFrames := if nxt = 0 then some (frame + 1) else st.nFrames
    frame := st.frame }

/-- The `_seek` loop, gas-indexed: the loop appends exactly one position
per iteration, so it runs exactly `frame + 1 - len(frame_pos)` times. -/
def seekGo (doc : TiffDoc) (frame : Nat) : Nat → FrameCursor → Except SeekErr FrameCursor
  | 0, st => .ok { st with frame := frame }
  | gas + 1, st =>
    if st.next = 0 then .error .eofError
    else if 2 ^ 63 ≤ st.next then .error .valueError
    else seekGo doc frame gas (seekStep doc st frame)

/-- `TiffImageFile._seek(frame)` restricted to the cursor state. -/
def seekF (doc : TiffDoc) (frame : Nat) (st : FrameCursor) : Except SeekErr FrameCursor :=
  seekGo doc frame (frame + 1 - st.frame_pos.length) st

/-- `TiffImageFile._open`'s cursor setup followed by `_seek(0)`: both
`__next` and `tag_v2.next` start at the header's first-IFD offset. -/
def openCursor (doc : TiffDoc) (first : Nat) : Except SeekErr FrameCursor :=
  seekF doc 0 ⟨[], first, first, none, 0⟩

/-- The `while self._n_frames is None: self._seek(self.tell() + 1)` loop of
the `n_frames` probe, with explicit gas (`none` = ran out of gas; the
termination theorem shows enough gas always exists). -/
def probeLoop (doc : TiffDoc) : Nat → FrameCursor → Option (Except SeekErr Nat)
  | 0, _ => none
  | gas + 1, st =>
    match st.nFrames with
    | some n => some (.ok n)
    | none =>
      match seekF doc (st.frame + 1) st with
      | .error e => some (.error e)
      | .ok st' => probeLoop doc gas st'

/-- The `n_frames` probe: `_seek(len(self._frame_pos))`, then seek forward
one frame at a time until `_n_frames` is known. -/
def nFramesProbe (doc : TiffDoc) (gas : Nat) (st : FrameCursor) : Option (Except SeekErr Nat) :=
  match st.nFrames with
  | some n => some (.ok n)
  | none =>
    match seekF doc st.frame_pos.length st with
    | .error e => some (.error e)
    | .ok st1 => probeLoop doc gas st1

/-- The offsets a cursor can ever record: the initial header offset plus
every next-pointer stored in the document. -/
def docNexts (doc : TiffDoc) : List Nat := doc.map fun e => e.2

/-- Reachability invariant of a reader cursor over a document: recorded
positions are distinct members of `A`, the loaded next pointer is in `A`,
and a pending nonzero `__next` is a fresh member of `A`. -/
structure ReaderInv (doc : TiffDoc) (A : List Nat) (st : FrameCursor) : Prop where
  nodup : st.frame_pos.Nodup
  fpSub : ∀ x ∈ st.frame_pos, x ∈ A
  tagMem : st.tagNext ∈ A
  nextOk : st.next ≠ 0 → st.next ∉ st.frame_pos ∧ st.next ∈ A
  docSub : ∀ x ∈ docNexts doc, x ∈ A

/-! ## `AppendingTiffWriter`

The underlying stream is a byte list with a cursor.  `read` returns the
available bytes (possibly fewer than requested), `write` overwrites in
place and extends at the end, a seek before position 0 is an `OSError`.
Python exceptions surface as an explicit error type; the messages of the
two `RuntimeError`s that claims talk about are kept verbatim. -/

structure PFile where
  data : List Nat
  pos : Nat
  deriving Repr, DecidableEq

def PFile.readBytes (n : Nat) (f : PFile) : List Nat × PFile :=
  let bs := (f.data.drop f.pos).take n
  (bs, { f with pos := f.pos + bs.length })

def PFile.writeBytes (bs : List Nat) (f : PFile) : PFile :=
  let d :=
    if f.data.length < f.pos then f.data ++ List.replicate (f.pos - f.data.length) 0
    else f.data
  { data := d.take f.pos ++ bs ++ d.drop (f.pos + bs.length), pos := f.pos + bs.length }

def PFile.seekSet (off : Nat) (f : PFile) : PFile := { f with pos := off }

inductive AErr where
  | runtimeError (msg : String)
  | structError
  | indexError
  | oserror
  | assertionError
  deriving Repr, DecidableEq

def PFile.seekCur (delta : Int) (f : PFile) : Except AErr PFile :=
  if (f.pos : Int) + delta < 0 then .error .oserror
  else .ok { f with pos := ((f.pos : Int) + delta).toNat }

/-- `AppendingTiffWriter.fieldSizes`. -/
def fieldSizes : List Nat := [0, 1, 1, 2, 4, 8, 1, 1, 2, 4, 8, 4, 8, 4, 2, 4, 8]

/-- `AppendingTiffWriter.Tags`: the offset-bearing tags that need their
values relocated. -/
def rewriteTags : List Nat := [273, 288, 324, 519, 520, 521]

/-- The writer state: stream plus the fields of `AppendingTiffWriter` that
`finalize`/`fixIFD`/`_fixOffsets` consult. -/
structure AWriter where
  f : PFile
  bo : ByteOrder
  bigtiff : Bool
  offsetOfNewPage : Nat
  whereToWriteNewIFDOffset : Option Nat
  isFirst : Bool
  iimm : List Nat
  deriving Repr, DecidableEq

/-- `AppendingTiffWriter._fmt`: only 2-, 4- and 8-byte fields can be
packed; anything else is `RuntimeError("offset is not supported")`. -/
def fmtValid (n : Nat) : Bool := n = 2 || n = 4 || n = 8

/-- `AppendingTiffWriter._read(field_size)`: read and unpack one unsigned
value; a short read is a `struct.error`. -/
def AWriter.read1 (fieldSize : Nat) (w : AWriter) : Except AErr (Nat × AWriter) :=
  if !fmtValid fieldSize then .error (.runtimeError "offset is not supported")
  else
    let p := w.f.readBytes fieldSize
    if p.1.length ≠ fieldSize then .error .structError
    else .ok (unpackU w.bo p.1, { w with f := p.2 })

/-- `AppendingTiffWriter._write(value, field_size)`: pack (range-checked)
and write. -/
def AWriter.write1 (value fieldSize : Nat) (w : AWriter) : Except AErr AWriter :=
  if !fmtValid fieldSize then .error (.runtimeError "offset is not supported")
  else
    match packU w.bo fieldSize value with
    | none => .error .structError
    | some bs => .ok { w with f := w.f.writeBytes bs }

/-- `AppendingTiffWriter._rewriteLast(value, field_size, new_field_size)`:
seek back over the just-read field and overwrite it (possibly wider). -/
def AWriter.rewriteLast (value fieldSize newFieldSize : Nat) (w : AWriter) :
    Except AErr AWriter := do
  let f ← w.f.seekCur (-(fieldSize : Int))
  let w := { w with f := f }
  let nfs := if newFieldSize = 0 then fieldSize else newFieldSize
  w.write1 value nfs

def AWriter.seekSet (off : Nat) (w : AWriter) : AWriter := { w with f := w.f.seekSet off }

def AWriter.seekCur (delta : Int) (w : AWriter) : Except AErr AWriter := do
  let f ← w.f.seekCur delta
  pure { w with f := f }

/-- The loop body of `AppendingTiffWriter._fixOffsets(count, field_size)`,
peeled `rem` more times: read one stored offset, relocate it by
`offsetOfNewPage`; when the relocated value no longer fits the field,
promote the field (LONG8 under BigTIFF past 2^32, LONG for a short past
2^16) — only implemented for `count == 1` — and overwrite two bytes at
`rewind = -new_field_size - 4 - 2` from the current position with the new
field size. -/
def AWriter.fixOffsetsGo (count fs : Nat) : Nat → AWriter → Except AErr AWriter
  | 0, w => .ok w
  | rem + 1, w => do
    let (off0, w) ← w.read1 fs
    let offset := off0 + w.offsetOfNewPage
    let nfs :=
      if w.bigtiff ∧ (fs = 2 ∨ fs = 4) ∧ 2 ^ 32 ≤ offset then 8
      else if fs = 2 ∧ 2 ^ 16 ≤ offset then 4
      else 0
    if nfs ≠ 0 then
      if count ≠ 1 then .error (.runtimeError "not implemented")
      else do
        let w ← w.rewriteLast offset fs nfs
        let rewind : Int := -(nfs : Int) - 4 - 2
        let w ← w.seekCur rewind
        let w ← w.write1 nfs 2
        let w ← w.seekCur (2 - rewind)
        AWriter.fixOffsetsGo count fs rem w
    else do
      let w ← w.rewriteLast offset fs 0
      AWriter.fixOffsetsGo count fs rem w

/-- `AppendingTiffWriter._fixOffsets(count, field_size)`. -/
def AWriter.fixOffsetsF (count fs : Nat) (w : AWriter) : Except AErr AWriter :=
  AWriter.fixOffsetsGo count fs count w

/-- One directory entry of the `fixIFD` loop: parse `(tag, type, count)`,
relocate a non-local data offset, and run `_fixOffsets` over the values of
the offset-bearing tags. -/
def AWriter.fixTagLoop : Nat → AWriter → Except AErr AWriter
  | 0, w => .ok w
  | rem + 1, w => do
    let hdrLen := if w.bigtiff then 12 else 8
    let p := w.f.readBytes hdrLen
    if p.1.length ≠ hdrLen then .error .structError
    else do
      let w := { w with f := p.2 }
      let tag := unpackU w.bo (p.1.take 2)
      let fieldType := unpackU w.bo ((p.1.drop 2).take 2)
      let count := unpackU w.bo (p.1.drop 4)
      let fieldSize ←
        match fieldSizes[fieldType]? with
        | some s => pure s
        | none => .error .indexError
      let totalSize := fieldSize * count
      let fmt8 := if w.bigtiff then 8 else 4
      let isLocal := totalSize ≤ fmt8
      let (offset, w) ←
        if isLocal then pure (0, w)
        else do
          let (o, w) ← w.read1 fmt8
          let o := o + w.offsetOfNewPage
          let w ← w.rewriteLast o fmt8 0
          pure (o, w)
      if tag ∈ rewriteTags then do
        let cur := w.f.pos
        if isLocal then do
          let w ← w.fixOffsetsF count fieldSize
          AWriter.fixTagLoop rem (w.seekSet (cur + fmt8))
        else do
          let w := w.seekSet offset
          let w ← w.fixOffsetsF count fieldSize
          AWriter.fixTagLoop rem (w.seekSet cur)
      else if isLocal then do
        let w ← w.seekCur fmt8
        AWriter.fixTagLoop rem w
      else
        AWriter.fixTagLoop rem w

/-- `AppendingTiffWriter.fixIFD`. -/
def AWriter.fixIFD (w : AWriter) : Except AErr AWriter := do
  let (numTags, w) ← w.read1 (if w.bigtiff then 8 else 2)
  AWriter.fixTagLoop numTags w

/-- `AppendingTiffWriter.finalize`: nothing to do for the first page; an
empty read at `offsetOfNewPage` means no new frame was started and returns
immediately; otherwise verify the page header, relocate its first-IFD
offset into the previous page's zero next-IFD slot, and fix the IFD. -/
def AWriter.finalize (w : AWriter) : Except AErr AWriter :=
  if w.isFirst then .ok w
  else
    let w := w.seekSet w.offsetOfNewPage
    let p := w.f.readBytes 4
    let w := { w with f := p.2 }
    if p.1 = [] then .ok w
    else if p.1 ≠ w.iimm then
      .error (.runtimeError "IIMM of new page doesn't match IIMM of first page")
    else do
      let w ← if w.bigtiff then w.seekCur 4 else pure w
      let (ifdOffset, w) ← w.read1 (if w.bigtiff then 8 else 4)
      let ifdOffset := ifdOffset + w.offsetOfNewPage
      match w.whereToWriteNewIFDOffset with
      | none => .error .assertionError
      | some wh => do
        let w := w.seekSet wh
        let w ← w.write1 ifdOffset (if w.bigtiff then 8 else 4)
        let w := w.seekSet ifdOffset
        w.fixIFD

/-! ## Claim-specific definitions -/

/-- The auto-typing rule for all-integer values exactly as the claim
states it: SHORT on `[0, 2^16)`, SIGNED_SHORT on `(−2^15, 2^15)`, LONG on
`[0, 2^32)`, else SIGNED_LONG.  (Stated from the spec's words, to be
compared with `inferAutoType`, which is translated from the code.) -/
def specAutoTypeInt (vs : List Int) : Nat :=
  if ∀ v ∈ vs, 0 ≤ v ∧ v < 2 ^ 16 then SHORT
  else if ∀ v ∈ vs, -(2 ^ 15) < v ∧ v < 2 ^ 15 then SIGNED_SHORT
  else if ∀ v ∈ vs, 0 ≤ v ∧ v < 2 ^ 32 then LONG
  else SIGNED_LONG

/-- The C1 failing input: a BigTIFF little-endian directory entry for
`StripOffsets` (tag 273 = `[0x11, 0x01]`), type SHORT (3), count 1, inline
value 4, with the writer positioned at the value field (entry offset 12)
and `offsetOfNewPage = 2^32`, exactly as `fixIFD` invokes `_fixOffsets`
for a local offset-bearing tag. -/
def c1wIn : AWriter :=
  ⟨⟨[17, 1, 3, 0, 1, 0, 0, 0, 0, 0, 0, 0, 4, 0, 0, 0, 0, 0, 0, 0], 12⟩,
    .le, true, 2 ^ 32, some 0, false, [73, 73, 43, 0]⟩

/-- What the code actually produces on `c1wIn`. -/
def c1wOut : AWriter :=
  ⟨⟨[17, 1, 3, 0, 1, 0, 8, 0, 0, 0, 0, 0, 4, 0, 0, 0, 1, 0, 0, 0], 24⟩,
    .le, true, 2 ^ 32, some 0, false, [73, 73, 43, 0]⟩

/-- The `new_field_size ≠ 0` condition of `_fixOffsets`: a relocated value
no longer fits its field. -/
def needsWidenB (big : Bool) (fs : Nat) (off : Nat) : Bool :=
  (big && (decide (fs = 2) || decide (fs = 4)) && decide (2 ^ 32 ≤ off)) ||
    (decide (fs = 2) && decide (2 ^ 16 ≤ off))

/-- The unsigned value stored at byte position `p` (width `size`) of a
file. -/
def sliceU (bo : ByteOrder) (f : PFile) (p size : Nat) : Nat :=
  unpackU bo ((f.data.drop p).take size)

/-- The two-IFD document whose second IFD points back at the first
(spec scenario 5). -/
def cyclicDoc : TiffDoc := [(8, 100), (100, 8)]

/-- The 12- or 20-byte wire form of one directory entry as pass 2 of
`tobytes` packs it: `HHL4s` / `HHQ8s`. -/
def entryBytes2 (cfg : IFDCfg) (e : DirEntry) : Option (List Nat) := do
  let t ← packU cfg.bo 2 e.tag
  let ty ← packU cfg.bo 2 e.typ
  let c ← packU cfg.bo cfg.fmtSize e.count
  pure (t ++ ty ++ c ++ fmtS cfg.fmtSize e.value)

/-- One auxiliary block as pass 3 of `tobytes` emits it: the data plus one
NUL byte when its length is odd. -/
def auxBlock (e : DirEntry) : List Nat :=
  e.data ++ (if e.data.length % 2 = 1 then [0] else [])

/-- Structural effectful map over `Option` (the form in which the entry
table of pass 2 is assembled below). -/
def mapOpt {α β : Type} (f : α → Option β) : List α → Option (List β)
  | [] => some []
  | a :: l => do
    let b ← f a
    let bs ← mapOpt f l
    pure (b :: bs)

/-- The running aux-data offset pass 1 has reached just before entry `i`:
the base plus the word-padded lengths of the earlier entries' auxiliary
payloads (inline entries carry no data and contribute 0). -/
def auxOffsetAt (offset : Nat) (entries : List DirEntry) (i : Nat) : Nat :=
  offset + (((entries.take i).map fun x => (x.data.length + 1) / 2 * 2).sum)

/-! ## Theorems -/

/-- **C7**: for every string of ASCII-encodable characters (code points
below 128), the ASCII writer emits exactly the string's bytes followed by
one NUL, and the loader on those bytes strips the single trailing NUL and
returns the original string, so the decoded value carries no
terminator. -/
theorem claim_C7 (s : List Nat) (h : ∀ c ∈ s, c < 128) :
    write_string (PyV.str s) = some (s ++ [0]) ∧ load_string (s ++ [0]) = s := by
  constructor
  · have hmap : encodeAsciiReplace s = s := by
      unfold encodeAsciiReplace
      induction s with
      | nil => rfl
      | cons a t ih =>
        have ha := h a (by simp)
        simp only [List.map_cons, if_pos ha, List.cons.injEq, true_and]
        exact ih fun c hc => h c (by simp [hc])
    simp [write_string, hmap]
  · simp [load_string, List.getLast?_concat, List.dropLast_concat]

theorem claim_C7_witness :
    write_string (PyV.str [84, 73]) = some [84, 73, 0] ∧
      load_string [84, 73, 0] = [84, 73] := by
  have := claim_C7 [84, 73] (by decide)
  simpa using this

/-- **C9**: `__delitem__` never raises: it is a total function that removes
the tag from `_tags_v2`, `_tags_v1` and `_tagdata`, after which the
membership test (`_tags_v2` or `_tagdata`) is false; and deleting a tag
that is absent from the directory (all three stores) leaves the directory
unchanged instead of raising `KeyError`. -/
theorem claim_C9 (d : DirStores) (tag : Nat) :
    containsTag (delitem d tag) tag = false ∧
      (containsTag d tag = false → (∀ e ∈ d.tags_v1, e.1 ≠ tag) → delitem d tag = d) := by
  constructor
  · simp [containsTag, delitem, List.any_filter]
  · intro habs hv1
    simp only [containsTag, Bool.or_eq_false_iff, List.any_eq_false] at habs
    have h2 : ∀ e ∈ d.tags_v2, e.1 ≠ tag := fun e he => by simpa using habs.1 e he
    have hdd : ∀ e ∈ d.tagdata, e.1 ≠ tag := fun e he => by simpa using habs.2 e he
    cases d with
    | mk v2 v1 td =>
      simp only [delitem, DirStores.mk.injEq]
      refine ⟨?_, ?_, ?_⟩ <;> rw [List.filter_eq_self] <;> intro e he
      · simpa using h2 e he
      · simpa using hv1 e he
      · simpa using hdd e he

theorem claim_C9_witness :
    containsTag (delitem ⟨[(259, PyV.int 1)], [], [(262, [0])]⟩ 259) 259 = false ∧
      (containsTag (⟨[(259, PyV.int 1)], [], [(262, [0])]⟩ : DirStores) 305 = false →
        (∀ e ∈ ([] : List (Nat × PyV)), e.1 ≠ 305) →
        delitem ⟨[(259, PyV.int 1)], [], [(262, [0])]⟩ 305 =
          ⟨[(259, PyV.int 1)], [], [(262, [0])]⟩) := by
  exact claim_C9 ⟨[(259, PyV.int 1)], [], [(262, [0])]⟩ 259 |>.imp id
    (fun _ => (claim_C9 ⟨[(259, PyV.int 1)], [], [(262, [0])]⟩ 305).2)

theorem mkRat_coprime_num_den {n : Int} {d : Nat} (hd : d ≠ 0) (hcop : n.natAbs.gcd d = 1) :
    (mkRat n d).num = n ∧ (mkRat n d).den = d := by
  have h := (Rat.mk_eq_mkRat n d hd hcop).symm
  rw [h]
  exact ⟨rfl, rfl⟩

/-- **C8**: for integers `(n, d)` with `0 < d ≤ 2^32 − 1` and
`gcd(n, d) = 1`, `IFDRational(n, d).limit_rational(2^32 − 1)` returns
exactly `(n, d)`: the denominator limiter is the identity on fractions
already in lowest terms whose denominator is within the bound. -/
theorem claim_C8 (n d : Int) (h0 : 0 < d) (h1 : d ≤ 2 ^ 32 - 1)
    (hgcd : Int.gcd n d = 1) :
    (IFDRat.ofIntPair n d).limit_rational (2 ^ 32 - 1) = some (n, d) := by
  have hd0 : d ≠ 0 := by omega
  have habs : d.natAbs = d.toNat := by
    have h1 := Int.natAbs_of_nonneg (le_of_lt h0)
    have h2 := Int.toNat_of_nonneg (le_of_lt h0)
    omega
  have hcop : n.natAbs.gcd d.toNat = 1 := by
    rw [← habs]; exact hgcd
  have htoNat : d.toNat ≠ 0 := by omega
  have hq := mkRat_coprime_num_den (n := n) htoNat hcop
  have hval : (IFDRat.ofIntPair n d).val = some (mkRat n d.toNat) := by
    by_cases hd1 : d = 1
    · subst hd1
      simp [IFDRat.ofIntPair]
    · simp [IFDRat.ofIntPair, hd0, hd1, pyFraction, not_lt_of_le (le_of_lt h0)]
  have hden : (IFDRat.ofIntPair n d).denominator = d := by
    simp only [IFDRat.ofIntPair, if_neg hd0]
    split <;> rfl
  have hcast : ((d.toNat : Nat) : Int) = d := Int.toNat_of_nonneg (le_of_lt h0)
  unfold IFDRat.limit_rational
  rw [hden, if_neg hd0, hval]
  unfold limitDenominator
  have hle : ((mkRat n d.toNat).den : Int) ≤ 2 ^ 32 - 1 := by rw [hq.2]; omega
  simp [hle, hq.1, hq.2, hcast, show ¬((2 : Int) ^ 32 - 1 < 1) by omega]
  exact ⟨mkRat n d.toNat, by rw [if_pos (by omega : d ≤ 4294967295)],
    hq.1, by rw [hq.2]; exact hcast⟩

theorem claim_C8_witness :
    (IFDRat.ofIntPair 3 7).limit_rational (2 ^ 32 - 1) = some (3, 7) :=
  claim_C8 3 7 (by decide) (by decide) (by decide)

/-- **C6, counterexample**: for the single value `2^32` the code infers
LONG (its `long` flag only checks nonnegativity, never the `2^32` upper
bound), while the claim's rule demands SIGNED_LONG. -/
theorem claim_C6_counterexample :
    inferAutoType [PyV.int (2 ^ 32)] = LONG ∧
      specAutoTypeInt [2 ^ 32] = SIGNED_LONG ∧ LONG ≠ SIGNED_LONG := by
  exact ⟨by decide, by decide, by decide⟩

theorem foldl_flags (l : List PyV) (a b c : Bool) :
    l.foldl
      (fun fl v =>
        (fl.1 && decide (0 ≤ intOf v ∧ intOf v < 2 ^ 16),
         fl.2.1 && decide (-(2 ^ 15) < intOf v ∧ intOf v < 2 ^ 15),
         fl.2.2 && decide (0 ≤ intOf v)))
      (a, b, c) =
    (a && l.all fun v => decide (0 ≤ intOf v ∧ intOf v < 2 ^ 16),
     b && l.all fun v => decide (-(2 ^ 15) < intOf v ∧ intOf v < 2 ^ 15),
     c && l.all fun v => decide (0 ≤ intOf v)) := by
  induction l generalizing a b c with
  | nil => simp
  | cons x t ih =>
    rw [List.foldl_cons, ih, List.all_cons, List.all_cons, List.all_cons]
    simp only [Bool.and_assoc]

theorem all_map_int (vs : List Int) (p : Int → Prop) [DecidablePred p] :
    ((vs.map PyV.int).all fun v => decide (p (intOf v))) = decide (∀ v ∈ vs, p v) := by
  induction vs with
  | nil => simp
  | cons x t ih =>
    rw [List.map_cons, List.all_cons, ih]
    simp [intOf, List.forall_mem_cons]

/-- **C6, amended**: auto-typing for dictionary-unknown tags.  All-integer
values infer SHORT on `[0, 2^16)`, else SIGNED_SHORT on `(−2^15, 2^15)`,
else LONG whenever every value is nonnegative (the code never checks the
`2^32` upper bound), else SIGNED_LONG; all-float values infer DOUBLE,
all-string ASCII, all-bytes BYTE, and all-rational values SIGNED_RATIONAL
exactly when some value is negative, else RATIONAL (each family taken
nonempty, as an empty value tuple hits the vacuous rational branch). -/
theorem claim_C6 :
    (∀ vs : List Int, vs ≠ [] →
      inferAutoType (vs.map PyV.int) =
        if ∀ v ∈ vs, 0 ≤ v ∧ v < 2 ^ 16 then SHORT
        else if ∀ v ∈ vs, -(2 ^ 15) < v ∧ v < 2 ^ 15 then SIGNED_SHORT
        else if ∀ v ∈ vs, 0 ≤ v then LONG
        else SIGNED_LONG) ∧
    (∀ fs : List Float, fs ≠ [] → inferAutoType (fs.map PyV.flt) = DOUBLE) ∧
    (∀ ss : List (List Nat), ss ≠ [] → inferAutoType (ss.map PyV.str) = ASCII) ∧
    (∀ bs : List (List Nat), bs ≠ [] → inferAutoType (bs.map PyV.byts) = BYTE) ∧
    (∀ rs : List (Int × Int),
      inferAutoType (rs.map fun p => PyV.rat p.1 p.2) =
        if ∃ p ∈ rs, ratNegV (PyV.rat p.1 p.2) then SIGNED_RATIONAL else RATIONAL) := by
  refine ⟨?_, ?_, ?_, ?_, ?_⟩
  · rintro ⟨⟩ hne
    · exact absurd rfl hne
    case cons v t =>
      have hrat : ((v :: t).map PyV.int).all isIFDRationalV = false := by
        simp [isIFDRationalV]
      have hint : ∀ l : List Int, (l.map PyV.int).all isIntV = true := by
        intro l
        induction l with
        | nil => rfl
        | cons x s ih => simp [isIntV, ih]
      rw [inferAutoType]
      simp only [hrat, hint (v :: t), Bool.false_eq_true, if_false, if_true,
        foldl_flags, Bool.true_and]
      rw [all_map_int (v :: t) fun x => 0 ≤ x ∧ x < 2 ^ 16,
        all_map_int (v :: t) fun x => -(2 ^ 15) < x ∧ x < 2 ^ 15,
        all_map_int (v :: t) fun x => 0 ≤ x]
      simp only [decide_eq_true_eq]
  · rintro ⟨⟩ hne
    · exact absurd rfl hne
    case cons v t =>
      have hflt : ∀ l : List Float, (l.map PyV.flt).all isFloatV = true := by
        intro l
        induction l with
        | nil => rfl
        | cons x s ih => simp [isFloatV, ih]
      rw [inferAutoType]
      have h1 : ((v :: t).map PyV.flt).all isIFDRationalV = false := by
        simp [isIFDRationalV]
      have h2 : ((v :: t).map PyV.flt).all isIntV = false := by
        simp [isIntV]
      rw [h1, h2, hflt (v :: t)]
      simp
  · rintro ⟨⟩ hne
    · exact absurd rfl hne
    case cons v t =>
      have hstr : ∀ l : List (List Nat), (l.map PyV.str).all isStrV = true := by
        intro l
        induction l with
        | nil => rfl
        | cons x s ih => simp [isStrV, ih]
      rw [inferAutoType]
      have h1 : ((v :: t).map PyV.str).all isIFDRationalV = false := by
        simp [isIFDRationalV]
      have h2 : ((v :: t).map PyV.str).all isIntV = false := by
        simp [isIntV]
      have h3 : ((v :: t).map PyV.str).all isFloatV = false := by
        simp [isFloatV]
      rw [h1, h2, h3, hstr (v :: t)]
      simp
  · rintro ⟨⟩ hne
    · exact absurd rfl hne
    case cons v t =>
      have hbyt : ∀ l : List (List Nat), (l.map PyV.byts).all isBytesV = true := by
        intro l
        induction l with
        | nil => rfl
        | cons x s ih => simp [isBytesV, ih]
      rw [inferAutoType]
      have h1 : ((v :: t).map PyV.byts).all isIFDRationalV = false := by
        simp [isIFDRationalV]
      have h2 : ((v :: t).map PyV.byts).all isIntV = false := by
        simp [isIntV]
      have h3 : ((v :: t).map PyV.byts).all isFloatV = false := by
        simp [isFloatV]
      have h4 : ((v :: t).map PyV.byts).all isStrV = false := by
        simp [isStrV]
      rw [h1, h2, h3, h4, hbyt (v :: t)]
      simp
  · intro rs
    have hany : ∀ l : List (Int × Int),
        ((l.map fun p => PyV.rat p.1 p.2).any ratNegV)
          = decide (∃ p ∈ l, ratNegV (PyV.rat p.1 p.2)) := by
      intro l
      induction l with
      | nil => simp
      | cons x s ih =>
        rw [List.map_cons, List.any_cons, ih]
        by_cases hx : ratNegV (PyV.rat x.1 x.2)
        · simp [hx]
        · simp [hx]
    have hrat : (rs.map fun p => PyV.rat p.1 p.2).all isIFDRationalV = true := by
      induction rs with
      | nil => rfl
      | cons x s ih => simp [isIFDRationalV, ih]
    rw [inferAutoType, hrat]
    rw [hany rs]
    by_cases h : ∃ p ∈ rs, ratNegV (PyV.rat p.1 p.2)
    · simp [h]
    · simp [h]

theorem claim_C6_witness :
    inferAutoType [PyV.int 70000] =
      (if ∀ v ∈ [(70000 : Int)], 0 ≤ v ∧ v < 2 ^ 16 then SHORT
       else if ∀ v ∈ [(70000 : Int)], -(2 ^ 15) < v ∧ v < 2 ^ 15 then SIGNED_SHORT
       else if ∀ v ∈ [(70000 : Int)], 0 ≤ v then LONG
       else SIGNED_LONG) :=
  claim_C6.1 [70000] (by decide)

/-- **C10**: `finalize` on a non-first page whose 4-byte read at
`offsetOfNewPage` comes back empty (the file ends at or before that
offset) returns without writing: the file contents are unchanged (only the
stream position moved to `offsetOfNewPage`) and no error is raised. -/
theorem claim_C10 (w : AWriter) (h1 : w.isFirst = false)
    (h2 : w.f.data.length ≤ w.offsetOfNewPage) :
    w.finalize = .ok { w with f := ⟨w.f.data, w.offsetOfNewPage⟩ } := by
  unfold AWriter.finalize
  rw [h1]
  simp only [Bool.false_eq_true, if_false, AWriter.seekSet, PFile.seekSet, PFile.readBytes,
    List.drop_eq_nil_of_le h2, List.take_nil, List.length_nil, Nat.add_zero]
  simp [h1]

theorem claim_C10_witness :
    AWriter.finalize ⟨⟨[1, 2, 3], 0⟩, .le, false, 16, some 4, false, [73, 73, 42, 0]⟩ =
      .ok ⟨⟨[1, 2, 3], 16⟩, .le, false, 16, some 4, false, [73, 73, 42, 0]⟩ :=
  claim_C10 ⟨⟨[1, 2, 3], 0⟩, .le, false, 16, some 4, false, [73, 73, 42, 0]⟩ rfl
    (by decide)

/-- **C1**: the claim fails on the code for BigTIFF.  Promoting the SHORT
offset 4 with `offsetOfNewPage = 2^32` rewrites the value field to an
8-byte LONG8 value, but then `rewind = -new_field_size - 4 - 2` assumes a
4-byte count field, so the "type" write of `writeShort(new_field_size)`
lands 4 bytes short of the type code and *inside* the BigTIFF 8-byte count
field: the entry's type code still reads SHORT (3), not LONG8 (16), and
the count field is corrupted from 1 to 524289 — contradicting the claim
that the type code becomes 16 and the count field is left unchanged. -/
theorem claim_C1 :
    c1wIn.fixOffsetsF 1 2 = .ok c1wOut ∧
      unpackU .le ((c1wOut.f.data.drop 2).take 2) = SHORT ∧
      unpackU .le ((c1wOut.f.data.drop 4).take 8) = 524289 ∧
      unpackU .le (c1wOut.f.data.drop 12) = 2 ^ 32 + 4 ∧
      SHORT ≠ LONG8 ∧ (524289 : Nat) ≠ 1 :=
  ⟨rfl, by decide, by decide, by decide, by decide, by decide⟩

theorem bytesLE_length (size v : Nat) : (bytesLE size v).length = size := by
  simp [bytesLE]

theorem packU_nat (bo : ByteOrder) (size : Nat) (v : Nat) (h : v < 2 ^ (8 * size)) :
    ∃ bs, packU bo size (v : Int) = some bs ∧ bs.length = size := by
  unfold packU
  rw [if_pos ⟨Int.ofNat_nonneg v, by exact_mod_cast h⟩]
  cases bo
  · exact ⟨_, rfl, by simp [bytesLE_length]⟩
  · exact ⟨_, rfl, by simp [bytesLE_length]⟩

theorem exceptBind_ok {ε : Type} {α β : Type} (a : α) (k : α → Except ε β) :
    (Except.ok a >>= k) = k a := rfl

theorem exceptPure {ε : Type} {α : Type} (a : α) :
    (pure a : Except ε α) = Except.ok a := rfl

theorem readBytes_spec (f : PFile) (n : Nat) (h : f.pos + n ≤ f.data.length) :
    f.readBytes n = ((f.data.drop f.pos).take n, ⟨f.data, f.pos + n⟩) := by
  unfold PFile.readBytes
  have hlen : ((f.data.drop f.pos).take n).length = n := by
    rw [List.length_take, List.length_drop]
    omega
  simp only [hlen]

theorem writeBytes_spec (f : PFile) (bs : List Nat) (h : f.pos + bs.length ≤ f.data.length) :
    f.writeBytes bs =
      ⟨f.data.take f.pos ++ bs ++ f.data.drop (f.pos + bs.length), f.pos + bs.length⟩ := by
  unfold PFile.writeBytes
  rw [if_neg (by omega)]

theorem write_data_length (d bs : List Nat) (p : Nat) (hp : p + bs.length ≤ d.length) :
    (d.take p ++ bs ++ d.drop (p + bs.length)).length = d.length := by
  simp only [List.length_append, List.length_take, List.length_drop]
  omega

theorem write_data_drop (d bs : List Nat) (p q : Nat) (hp : p + bs.length ≤ d.length)
    (hq : p + bs.length ≤ q) :
    (d.take p ++ bs ++ d.drop (p + bs.length)).drop q = d.drop q := by
  have h1 : (d.take p ++ bs).length = p + bs.length := by
    simp only [List.length_append, List.length_take]
    omega
  have h2 : q = (d.take p ++ bs).length + (q - (p + bs.length)) := by
    rw [h1]
    omega
  rw [h2, List.drop_append, List.drop_drop]
  congr 1
  omega

theorem read1_spec (w : AWriter) (fs : Nat) (hfs : fmtValid fs = true)
    (hbound : w.f.pos + fs ≤ w.f.data.length) :
    w.read1 fs = .ok (sliceU w.bo w.f w.f.pos fs, { w with f := ⟨w.f.data, w.f.pos + fs⟩ }) := by
  unfold AWriter.read1
  rw [hfs]
  simp only [Bool.not_true, Bool.false_eq_true, if_false]
  rw [readBytes_spec w.f fs hbound]
  have hlen : ((w.f.data.drop w.f.pos).take fs).length = fs := by
    rw [List.length_take, List.length_drop]
    omega
  simp [hlen, sliceU]

theorem fixGo_widen_err (count fs rem : Nat) (w : AWriter) (hcount : count ≠ 1)
    (hfs : fs = 2 ∨ fs = 4)
    (hbound : w.f.pos + fs ≤ w.f.data.length)
    (hw : needsWidenB w.bigtiff fs (sliceU w.bo w.f w.f.pos fs + w.offsetOfNewPage) = true) :
    AWriter.fixOffsetsGo count fs (rem + 1) w = .error (.runtimeError "not implemented") := by
  have hfv : fmtValid fs = true := by
    rcases hfs with h | h <;> simp [fmtValid, h]
  simp only [AWriter.fixOffsetsGo]
  rw [read1_spec w fs hfv hbound]
  simp only [exceptBind_ok]
  set off := sliceU w.bo w.f w.f.pos fs + w.offsetOfNewPage with hoff
  simp only [needsWidenB, Bool.or_eq_true, Bool.and_eq_true, decide_eq_true_eq] at hw
  by_cases h1 : w.bigtiff = true ∧ (fs = 2 ∨ fs = 4) ∧ 2 ^ 32 ≤ off
  · rw [if_pos h1]
    simp [hcount]
  · have h2 : fs = 2 ∧ 2 ^ 16 ≤ off := by
      rcases hw with ⟨⟨hb, hor⟩, hge⟩ | ⟨h2, hge⟩
      · exact absurd ⟨hb, by simpa using hor, hge⟩ h1
      · exact ⟨h2, hge⟩
    rw [if_neg h1, if_pos h2]
    simp [hcount]

theorem rewriteLast_same_spec (w : AWriter) (value fs : Nat) (hfv : fmtValid fs = true)
    (hge : fs ≤ w.f.pos) (hle : w.f.pos ≤ w.f.data.length)
    (hv : value < 2 ^ (8 * fs)) :
    ∃ bs, bs.length = fs ∧
      w.rewriteLast value fs 0 =
        .ok { w with
          f := ⟨w.f.data.take (w.f.pos - fs) ++ bs ++ w.f.data.drop w.f.pos, w.f.pos⟩ } := by
  obtain ⟨bs, hpack, hlenbs⟩ := packU_nat w.bo fs value hv
  refine ⟨bs, hlenbs, ?_⟩
  unfold AWriter.rewriteLast
  unfold PFile.seekCur
  rw [if_neg (by push_cast; omega)]
  simp only [exceptBind_ok]
  have hposN : ((w.f.pos : Int) + -(fs : Int)).toNat = w.f.pos - fs := by omega
  unfold AWriter.write1
  simp only [hposN, if_true, hfv, Bool.not_true, Bool.false_eq_true, if_false]
  rw [hpack]
  have hws := writeBytes_spec (⟨w.f.data, w.f.pos - fs⟩ : PFile) bs
    (by simp only [hlenbs]; omega)
  simp only at hws
  have harith : w.f.pos - fs + bs.length = w.f.pos := by omega
  simp [hws, harith]

theorem fixGo_nowiden_step (count fs rem : Nat) (w : AWriter)
    (hfs : fs = 2 ∨ fs = 4) (hfs4 : fs = 4 → w.bigtiff = true)
    (hbound : w.f.pos + fs ≤ w.f.data.length)
    (hnw : needsWidenB w.bigtiff fs (sliceU w.bo w.f w.f.pos fs + w.offsetOfNewPage) = false) :
    ∃ d', AWriter.fixOffsetsGo count fs (rem + 1) w =
        AWriter.fixOffsetsGo count fs rem { w with f := ⟨d', w.f.pos + fs⟩ } ∧
      d'.length = w.f.data.length ∧
      ∀ q, w.f.pos + fs ≤ q → d'.drop q = w.f.data.drop q := by
  have hfv : fmtValid fs = true := by
    rcases hfs with h | h <;> simp [fmtValid, h]
  set off := sliceU w.bo w.f w.f.pos fs + w.offsetOfNewPage with hoff
  have hnw' := hnw
  simp only [needsWidenB, Bool.or_eq_false_iff, Bool.and_eq_false_iff] at hnw'
  have hrange : off < 2 ^ (8 * fs) := by
    rcases hfs with h2 | h4
    · subst h2
      rcases hnw'.2 with h | h
      · simp at h
      · simpa using of_decide_eq_false h
    · subst h4
      have hbig := hfs4 rfl
      rcases hnw'.1 with h | h
      · rcases h with h | h
        · rw [hbig] at h
          simp at h
        · simp at h
      · simpa using of_decide_eq_false h
  have hnfs : (if w.bigtiff = true ∧ (fs = 2 ∨ fs = 4) ∧ 2 ^ 32 ≤ off then 8
      else if fs = 2 ∧ 2 ^ 16 ≤ off then 4 else 0) = 0 := by
    rw [if_neg, if_neg]
    · intro ⟨h2, hge⟩
      rcases hnw'.2 with h | h
      · simp [h2] at h
      · exact absurd hge (by simpa using of_decide_eq_false h)
    · intro ⟨hb, hor, hge⟩
      rcases hnw'.1 with h | h
      · rcases h with h | h
        · rw [hb] at h
          simp at h
        · rcases hor with h2 | h2 <;> simp [h2] at h
      · exact absurd hge (by simpa using of_decide_eq_false h)
  obtain ⟨bs, hlenbs, hrw⟩ := rewriteLast_same_spec
    { w with f := ⟨w.f.data, w.f.pos + fs⟩ } off fs hfv (by simp)
    (by simp only; omega) hrange
  simp only at hrw
  have harith : w.f.pos + fs - fs = w.f.pos := by omega
  rw [harith] at hrw
  refine ⟨w.f.data.take w.f.pos ++ bs ++ w.f.data.drop (w.f.pos + fs), ?_, ?_, ?_⟩
  · simp only [AWriter.fixOffsetsGo]
    rw [read1_spec w fs hfv hbound]
    simp only [exceptBind_ok]
    rw [hnfs]
    simp only [ne_eq, not_true_eq_false, if_false, reduceIte]
    rw [hrw]
    simp only [exceptBind_ok]
  · have h1 : w.f.pos + bs.length ≤ w.f.data.length := by omega
    have := write_data_length w.f.data bs w.f.pos h1
    rw [hlenbs] at this
    simpa using this
  · intro q hq
    have h1 : w.f.pos + bs.length ≤ w.f.data.length := by omega
    have h2 : w.f.pos + bs.length ≤ q := by omega
    have := write_data_drop w.f.data bs w.f.pos q h1 h2
    rw [hlenbs] at this
    simpa using this

theorem fixGo_notimpl (count fs : Nat) (hcount : count ≠ 1) (hfs : fs = 2 ∨ fs = 4) :
    ∀ (j rem : Nat) (w : AWriter), j < rem →
      w.f.pos + rem * fs ≤ w.f.data.length →
      (fs = 4 → w.bigtiff = true) →
      needsWidenB w.bigtiff fs (sliceU w.bo w.f (w.f.pos + j * fs) fs + w.offsetOfNewPage)
        = true →
      (∀ i < j,
        needsWidenB w.bigtiff fs (sliceU w.bo w.f (w.f.pos + i * fs) fs + w.offsetOfNewPage)
          = false) →
      AWriter.fixOffsetsGo count fs rem w = .error (.runtimeError "not implemented") := by
  intro j
  induction j with
  | zero =>
    intro rem w hlt hbound hfs4 hw hmin
    obtain ⟨r, rfl⟩ : ∃ r, rem = r + 1 := ⟨rem - 1, by omega⟩
    have hb1 : w.f.pos + fs ≤ w.f.data.length := by
      have : fs ≤ (r + 1) * fs := by
        rcases hfs with h | h <;> subst h <;> omega
      omega
    apply fixGo_widen_err count fs r w hcount hfs hb1
    simpa using hw
  | succ j ih =>
    intro rem w hlt hbound hfs4 hw hmin
    obtain ⟨r, rfl⟩ : ∃ r, rem = r + 1 := ⟨rem - 1, by omega⟩
    have hb1 : w.f.pos + fs ≤ w.f.data.length := by
      have : fs ≤ (r + 1) * fs := by
        rcases hfs with h | h <;> subst h <;> omega
      omega
    have hnw0 : needsWidenB w.bigtiff fs
        (sliceU w.bo w.f w.f.pos fs + w.offsetOfNewPage) = false := by
      simpa using hmin 0 (by omega)
    obtain ⟨d', heq, hlen, hdrop⟩ := fixGo_nowiden_step count fs r w hfs hfs4 hb1 hnw0
    rw [heq]
    apply ih r { w with f := ⟨d', w.f.pos + fs⟩ } (by omega)
    · simp only
      rw [hlen]
      have : (r + 1) * fs = r * fs + fs := by ring
      omega
    · exact hfs4
    · simp only
      have hq : w.f.pos + fs ≤ w.f.pos + fs + j * fs := by omega
      show needsWidenB w.bigtiff fs
          (unpackU w.bo ((d'.drop (w.f.pos + fs + j * fs)).take fs) + w.offsetOfNewPage) = true
      rw [hdrop _ hq]
      have harith : w.f.pos + fs + j * fs = w.f.pos + (j + 1) * fs := by ring
      rw [harith]
      exact hw
    · intro i hi
      simp only
      have hq : w.f.pos + fs ≤ w.f.pos + fs + i * fs := by omega
      show needsWidenB w.bigtiff fs
          (unpackU w.bo ((d'.drop (w.f.pos + fs + i * fs)).take fs) + w.offsetOfNewPage) = false
      rw [hdrop _ hq]
      have harith : w.f.pos + fs + i * fs = w.f.pos + (i + 1) * fs := by ring
      rw [harith]
      exact hmin (i + 1) (by omega)

/-- **C3**: whenever `_fixOffsets` meets a relocated offset value that
requires a wider field (a 2-byte field whose value reaches `2^16`, or a 2-
or 4-byte field under BigTIFF whose value reaches `2^32`) and the entry's
count is not 1, it raises `RuntimeError("not implemented")` instead of
rewriting.  `j` is the first value index needing widening; the stored
values must all lie inside the file. -/
theorem claim_C3 (w : AWriter) (count fs j : Nat) (hcount : count ≠ 1)
    (hfs : fs = 2 ∨ fs = 4) (hj : j < count)
    (hbound : w.f.pos + count * fs ≤ w.f.data.length)
    (hw : needsWidenB w.bigtiff fs (sliceU w.bo w.f (w.f.pos + j * fs) fs + w.offsetOfNewPage)
      = true)
    (hmin : ∀ i < j,
      needsWidenB w.bigtiff fs (sliceU w.bo w.f (w.f.pos + i * fs) fs + w.offsetOfNewPage)
        = false) :
    w.fixOffsetsF count fs = .error (.runtimeError "not implemented") := by
  have hfs4 : fs = 4 → w.bigtiff = true := by
    intro h4
    subst h4
    simp only [needsWidenB, Bool.or_eq_true, Bool.and_eq_true, decide_eq_true_eq] at hw
    rcases hw with ⟨⟨hb, _⟩, _⟩ | ⟨h, _⟩
    · exact hb
    · simp at h
  exact fixGo_notimpl count fs hcount hfs j count w hj hbound hfs4 hw hmin

theorem claim_C3_witness :
    AWriter.fixOffsetsF 2 2 ⟨⟨[0, 255, 0, 255], 0⟩, .le, false, 2 ^ 16, some 0, false,
      [73, 73, 42, 0]⟩ = .error (.runtimeError "not implemented") :=
  claim_C3 ⟨⟨[0, 255, 0, 255], 0⟩, .le, false, 2 ^ 16, some 0, false, [73, 73, 42, 0]⟩
    2 2 0 (by decide) (Or.inl rfl) (by decide) (by decide) (by decide)
    (by intro i hi; omega)

theorem ReaderInv.lenBound {doc : TiffDoc} {A : List Nat} {st : FrameCursor}
    (h : ReaderInv doc A st) : st.frame_pos.length ≤ A.length := by
  classical
  have h1 : st.frame_pos.toFinset.card = st.frame_pos.length :=
    List.toFinset_card_of_nodup h.nodup
  have h2 : st.frame_pos.toFinset ⊆ A.toFinset := by
    intro x hx
    rw [List.mem_toFinset] at hx ⊢
    exact h.fpSub x hx
  calc st.frame_pos.length = st.frame_pos.toFinset.card := h1.symm
    _ ≤ A.toFinset.card := Finset.card_le_card h2
    _ ≤ A.length := List.toFinset_card_le A

theorem loadNext_mem {doc : TiffDoc} {A : List Nat} (off cur : Nat)
    (hdoc : ∀ x ∈ docNexts doc, x ∈ A) (hcur : cur ∈ A) : loadNext doc off cur ∈ A := by
  unfold loadNext
  cases hfind : doc.find? fun e => e.1 = off with
  | none => exact hcur
  | some e =>
    exact hdoc e.2 (List.mem_map.mpr ⟨e, List.mem_of_find?_eq_some hfind, rfl⟩)

theorem seekStep_inv {doc : TiffDoc} {A : List Nat} {st : FrameCursor} (frame : Nat)
    (h : ReaderInv doc A st) (hnz : st.next ≠ 0) :
    ReaderInv doc A (seekStep doc st frame) := by
  obtain ⟨hnotin, hnextA⟩ := h.nextOk hnz
  have htn : loadNext doc st.next st.tagNext ∈ A := loadNext_mem _ _ h.docSub h.tagMem
  constructor
  · simp only [seekStep]
    simp [List.nodup_append, h.nodup, hnotin]
  · intro x hx
    simp only [seekStep, List.mem_append, List.mem_singleton] at hx
    rcases hx with hx | rfl
    · exact h.fpSub x hx
    · exact hnextA
  · exact htn
  · by_cases hmem : loadNext doc st.next st.tagNext ∈ st.frame_pos ++ [st.next]
    · intro hnz'
      exact absurd (by simp [seekStep, hmem] : (seekStep doc st frame).next = 0) hnz'
    · intro hnz'
      constructor
      · simpa [seekStep, hmem] using hmem
      · simpa [seekStep, hmem] using htn
  · exact h.docSub

theorem seekStep_frame_pos (doc : TiffDoc) (st : FrameCursor) (frame : Nat) :
    (seekStep doc st frame).frame_pos = st.frame_pos ++ [st.next] := rfl

theorem seekF_at_len (doc : TiffDoc) (st : FrameCursor) :
    seekF doc st.frame_pos.length st =
      if st.next = 0 then .error .eofError
      else if 2 ^ 63 ≤ st.next then .error .valueError
      else .ok { seekStep doc st st.frame_pos.length with frame := st.frame_pos.length } := by
  unfold seekF
  have hgas : st.frame_pos.length + 1 - st.frame_pos.length = 1 := by omega
  rw [hgas]
  rfl

theorem probeLoop_total (doc : TiffDoc) (A : List Nat) :
    ∀ (gas : Nat) (st : FrameCursor), ReaderInv doc A st →
      st.frame + 1 = st.frame_pos.length →
      A.length + 1 ≤ gas + st.frame_pos.length →
      (probeLoop doc gas st).isSome = true := by
  intro gas
  induction gas with
  | zero =>
    intro st hInv hfr hgas
    have := hInv.lenBound
    omega
  | succ g ih =>
    intro st hInv hfr hgas
    cases hnf : st.nFrames with
    | some n => simp [probeLoop, hnf]
    | none =>
      simp only [probeLoop, hnf]
      rw [hfr, seekF_at_len doc st]
      by_cases h0 : st.next = 0
      · rw [if_pos h0]
        rfl
      · rw [if_neg h0]
        by_cases h63 : 2 ^ 63 ≤ st.next
        · rw [if_pos h63]
          rfl
        · rw [if_neg h63]
          show (probeLoop doc g
            { seekStep doc st st.frame_pos.length with frame := st.frame_pos.length }).isSome
              = true
          have hstep := seekStep_inv st.frame_pos.length hInv h0
          apply ih
          · exact ⟨hstep.nodup, hstep.fpSub, hstep.tagMem, hstep.nextOk, hstep.docSub⟩
          · simp [seekStep_frame_pos]
          · simp only [seekStep_frame_pos, List.length_append, List.length_singleton]
            omega

/-- **C2**: the reader's frame walk terminates on every document, cyclic
next-pointers included.  First: for any document and any cursor satisfying
the reachability invariant, the `n_frames` probe finishes within
`|A| + 1` seek steps (`probeLoop` never runs out of gas), because each
step appends a fresh offset from the finite set `A` to `frame_positions`
and a revisited next offset is zeroed out, recording
`total = current_frame + 1`.  Second: on the two-IFD document whose second
IFD points back at the first, opening the file and probing yields exactly
2 frames. -/
theorem claim_C2 :
    (∀ (doc : TiffDoc) (A : List Nat) (st : FrameCursor), ReaderInv doc A st →
      (nFramesProbe doc (A.length + 1) st).isSome = true) ∧
    (openCursor cyclicDoc 8).map (fun st => nFramesProbe cyclicDoc 2 st) =
      .ok (some (.ok 2)) := by
  constructor
  · intro doc A st hInv
    unfold nFramesProbe
    cases hnf : st.nFrames with
    | some n => simp
    | none =>
      rw [seekF_at_len doc st]
      by_cases h0 : st.next = 0
      · rw [if_pos h0]
        rfl
      · rw [if_neg h0]
        by_cases h63 : 2 ^ 63 ≤ st.next
        · rw [if_pos h63]
          rfl
        · rw [if_neg h63]
          show (probeLoop doc (A.length + 1)
            { seekStep doc st st.frame_pos.length with frame := st.frame_pos.length }).isSome
              = true
          have hstep := seekStep_inv st.frame_pos.length hInv h0
          apply probeLoop_total doc A
          · exact ⟨hstep.nodup, hstep.fpSub, hstep.tagMem, hstep.nextOk, hstep.docSub⟩
          · simp [seekStep_frame_pos]
          · simp only [seekStep_frame_pos, List.length_append, List.length_singleton]
            omega
  · rfl

theorem claim_C2_witness :
    (nFramesProbe cyclicDoc 3 ⟨[8], 100, 100, none, 0⟩).isSome = true :=
  claim_C2.1 cyclicDoc [8, 100] ⟨[8], 100, 100, none, 0⟩
    ⟨by decide, by decide, by decide, fun _ => ⟨by decide, by decide⟩, by decide⟩

theorem optBind_some {α β : Type} (a : α) (k : α → Option β) :
    ((some a : Option α) >>= k) = k a := rfl

theorem insertKey_perm (e : Nat × Nat × PyV) (l : Store) : (insertKey e l).Perm (e :: l) := by
  induction l with
  | nil => exact List.Perm.refl _
  | cons x xs ih =>
    unfold insertKey
    by_cases h : e.1 ≤ x.1
    · rw [if_pos h]
    · rw [if_neg h]
      exact (ih.cons x).trans (List.Perm.swap e x xs)

theorem mem_insertKey {y e : Nat × Nat × PyV} {l : Store} (h : y ∈ insertKey e l) :
    y = e ∨ y ∈ l := by
  rcases List.mem_cons.mp ((insertKey_perm e l).subset h) with h | h
  · exact Or.inl h
  · exact Or.inr h

theorem insertKey_pairwise (e : Nat × Nat × PyV) (l : Store)
    (hl : l.Pairwise fun a b => a.1 ≤ b.1) :
    (insertKey e l).Pairwise fun a b => a.1 ≤ b.1 := by
  induction l with
  | nil => simp [insertKey]
  | cons x xs ih =>
    unfold insertKey
    rcases List.pairwise_cons.mp hl with ⟨hx, hxs⟩
    by_cases h : e.1 ≤ x.1
    · rw [if_pos h]
      refine List.pairwise_cons.mpr ⟨?_, hl⟩
      intro y hy
      rcases List.mem_cons.mp hy with rfl | hy
      · exact h
      · exact le_trans h (hx y hy)
    · rw [if_neg h]
      refine List.pairwise_cons.mpr ⟨?_, ih hxs⟩
      intro y hy
      rcases mem_insertKey hy with rfl | hy
      · omega
      · exact hx y hy

theorem sortStore_perm (s : Store) : (sortStore s).Perm s := by
  induction s with
  | nil => exact List.Perm.refl _
  | cons e xs ih =>
    unfold sortStore
    exact (insertKey_perm e (sortStore xs)).trans (List.Perm.cons e ih)

theorem sortStore_pairwise (s : Store) :
    (sortStore s).Pairwise fun a b => a.1 ≤ b.1 := by
  induction s with
  | nil => simp [sortStore]
  | cons e xs ih => exact insertKey_pairwise e (sortStore xs) ih

theorem sorted_key_eq : ∀ (l1 l2 : Store), l1.Perm l2 →
    l1.Pairwise (fun a b => a.1 ≤ b.1) → l2.Pairwise (fun a b => a.1 ≤ b.1) →
    (l1.map fun e => e.1).Nodup → l1 = l2 := by
  intro l1
  induction l1 with
  | nil =>
    intro l2 hp _ _ _
    cases l2 with
    | nil => rfl
    | cons b t2 => exact absurd hp.length_eq (by simp)
  | cons a t1 ih =>
    intro l2 hp h1 h2 hnd
    cases l2 with
    | nil => exact absurd hp.length_eq (by simp)
    | cons b t2 =>
      rcases List.pairwise_cons.mp h1 with ⟨ha, ht1⟩
      rcases List.pairwise_cons.mp h2 with ⟨hb, ht2⟩
      have hab : a = b := by
        by_contra hne
        have hamem : a ∈ b :: t2 := hp.subset (by simp)
        have hbmem : b ∈ a :: t1 := hp.symm.subset (by simp)
        have ha2 : a ∈ t2 := by
          rcases List.mem_cons.mp hamem with h | h
          · exact absurd h hne
          · exact h
        have hb1 : b ∈ t1 := by
          rcases List.mem_cons.mp hbmem with h | h
          · exact absurd h.symm hne
          · exact h
        have hle1 : a.1 ≤ b.1 := ha b hb1
        have hle2 : b.1 ≤ a.1 := hb a ha2
        have hkey : a.1 = b.1 := le_antisymm hle1 hle2
        have : a.1 ∈ t1.map fun e => e.1 := by
          rw [hkey]
          exact List.mem_map.mpr ⟨b, hb1, rfl⟩
        simp only [List.map_cons, List.nodup_cons] at hnd
        exact hnd.1 this
      subst hab
      have htp : t1.Perm t2 := hp.cons_inv
      have : t1 = t2 := by
        apply ih t2 htp ht1 ht2
        simp only [List.map_cons, List.nodup_cons] at hnd
        exact hnd.2
      rw [this]

theorem sortStore_eq_of_perm (s1 s2 : Store) (hperm : s1.Perm s2)
    (hnd : (s1.map fun e => e.1).Nodup) : sortStore s1 = sortStore s2 := by
  apply sorted_key_eq
  · exact (sortStore_perm s1).trans (hperm.trans (sortStore_perm s2).symm)
  · exact sortStore_pairwise s1
  · exact sortStore_pairwise s2
  · have hmp : ((sortStore s1).map fun e => e.1).Perm (s1.map fun e => e.1) :=
      (sortStore_perm s1).map _
    exact hmp.nodup_iff.mpr hnd

theorem sortStore_map_key_nodup (s : Store) (hnd : (s.map fun e => e.1).Nodup) :
    ((sortStore s).map fun e => e.1).Nodup :=
  (((sortStore_perm s).map _).nodup_iff).mpr hnd

theorem sortStore_keys_lt (s : Store) (hnd : (s.map fun e => e.1).Nodup) :
    ((sortStore s).map fun e => e.1).Pairwise (· < ·) := by
  have hle : ((sortStore s).map fun e => e.1).Pairwise (· ≤ ·) :=
    List.Pairwise.map _ (fun a b h => h) (sortStore_pairwise s)
  have hne : ((sortStore s).map fun e => e.1).Pairwise (· ≠ ·) :=
    sortStore_map_key_nodup s hnd
  exact (hle.and hne).imp fun h => lt_of_le_of_ne h.1 h.2

theorem optBind_none {α β : Type} (k : α → Option β) :
    ((none : Option α) >>= k) = none := rfl

theorem optPureSome {α : Type} (a : α) : (pure a : Option α) = some a := rfl

theorem pass1_shape (cfg : IFDCfg) (enc : Nat → Nat → PyV → Nat → Option (List Nat)) :
    ∀ (store : Store) (offset : Nat) (es : List DirEntry) (off' : Nat),
      pass1 cfg enc store offset = some (es, off') →
      es.map DirEntry.tag = store.map (fun x => x.1) ∧ es.length = store.length := by
  intro store
  induction store with
  | nil =>
    intro offset es off' h
    unfold pass1 at h
    rw [Option.some.injEq, Prod.mk.injEq] at h
    obtain ⟨h1, -⟩ := h
    rw [← h1]
    exact ⟨rfl, rfl⟩
  | cons hd rest ih =>
    obtain ⟨tag, typ, v⟩ := hd
    intro offset es off' h
    unfold pass1 at h
    cases h1 : enc tag typ v offset with
    | none =>
      rw [h1, optBind_none] at h
      exact absurd h (by simp)
    | some data =>
      rw [h1, optBind_some] at h
      by_cases hle : data.length ≤ cfg.fmtSize
      · rw [if_pos hle] at h
        cases h2 : pass1 cfg enc rest offset with
        | none =>
          rw [h2, optBind_none] at h
          exact absurd h (by simp)
        | some p =>
          obtain ⟨es0, off0⟩ := p
          rw [h2, optBind_some] at h
          simp only [optPureSome, Option.some.injEq, Prod.mk.injEq] at h
          obtain ⟨hes, -⟩ := h
          obtain ⟨iht, ihl⟩ := ih offset es0 off0 h2
          rw [← hes]
          constructor
          · simp only [List.map_cons, iht]
          · simp only [List.length_cons, ihl]
      · rw [if_neg hle] at h
        cases h3 : packU cfg.bo cfg.fmtSize offset with
        | none =>
          rw [h3, optBind_none] at h
          exact absurd h (by simp)
        | some value =>
          rw [h3, optBind_some] at h
          cases h2 : pass1 cfg enc rest (offset + (data.length + 1) / 2 * 2) with
          | none =>
            rw [h2, optBind_none] at h
            exact absurd h (by simp)
          | some p =>
            obtain ⟨es0, off0⟩ := p
            rw [h2, optBind_some] at h
            simp only [optPureSome, Option.some.injEq, Prod.mk.injEq] at h
            obtain ⟨hes, -⟩ := h
            obtain ⟨iht, ihl⟩ := ih _ es0 off0 h2
            rw [← hes]
            constructor
            · simp only [List.map_cons, iht]
            · simp only [List.length_cons, ihl]

theorem auxOffsetAt_zero (offset : Nat) (entries : List DirEntry) :
    auxOffsetAt offset entries 0 = offset := by
  simp [auxOffsetAt]

theorem auxOffsetAt_succ_cons (offset : Nat) (e : DirEntry) (es : List DirEntry) (i : Nat) :
    auxOffsetAt offset (e :: es) (i + 1) =
      auxOffsetAt (offset + (e.data.length + 1) / 2 * 2) es i := by
  simp [auxOffsetAt, List.take_succ_cons]
  omega

theorem pass1_spec (cfg : IFDCfg) (enc : Nat → Nat → PyV → Nat → Option (List Nat)) :
    ∀ (store : Store) (offset : Nat) (entries : List DirEntry) (offEnd : Nat),
      pass1 cfg enc store offset = some (entries, offEnd) →
      ∀ i (hi : i < store.length) (he : i < entries.length),
        ∃ d, enc store[i].1 store[i].2.1 store[i].2.2 (auxOffsetAt offset entries i)
            = some d ∧
          (d.length ≤ cfg.fmtSize →
            entries[i] = ⟨store[i].1, store[i].2.1,
              pass1count store[i].2.1 store[i].2.2 d, ljust d cfg.fmtSize, []⟩) ∧
          (cfg.fmtSize < d.length →
            entries[i].tag = store[i].1 ∧ entries[i].typ = store[i].2.1 ∧
            entries[i].count = pass1count store[i].2.1 store[i].2.2 d ∧
            entries[i].data = d ∧
            packU cfg.bo cfg.fmtSize (auxOffsetAt offset entries i)
              = some (entries[i]).value) := by
  intro store
  induction store with
  | nil =>
    intro offset entries offEnd h i hi he
    exact absurd hi (by simp)
  | cons hd rest ih =>
    obtain ⟨tag, typ, v⟩ := hd
    intro offset entries offEnd h i hi he
    unfold pass1 at h
    cases h1 : enc tag typ v offset with
    | none =>
      rw [h1, optBind_none] at h
      exact absurd h (by simp)
    | some data =>
      rw [h1, optBind_some] at h
      by_cases hle : data.length ≤ cfg.fmtSize
      · rw [if_pos hle] at h
        cases h2 : pass1 cfg enc rest offset with
        | none =>
          rw [h2, optBind_none] at h
          exact absurd h (by simp)
        | some p =>
          obtain ⟨es0, off0⟩ := p
          rw [h2, optBind_some] at h
          simp only [optPureSome, Option.some.injEq, Prod.mk.injEq] at h
          obtain ⟨hes, -⟩ := h
          subst hes
          cases i with
          | zero =>
            refine ⟨data, ?_, ?_, ?_⟩
            · simpa [auxOffsetAt_zero] using h1
            · intro _
              rfl
            · intro hgt
              omega
          | succ i =>
            have hi' : i < rest.length := by simpa using hi
            have he' : i < es0.length := by simpa using he
            have hpad : (([] : List Nat).length + 1) / 2 * 2 = 0 := by decide
            obtain ⟨d, hd1, hd2, hd3⟩ := ih offset es0 off0 h2 i hi' he'
            refine ⟨d, ?_, ?_, ?_⟩
            · rw [auxOffsetAt_succ_cons]
              simpa using hd1
            · intro hdle
              simpa using hd2 hdle
            · intro hdgt
              rw [auxOffsetAt_succ_cons]
              simpa using hd3 hdgt
      · rw [if_neg hle] at h
        cases h3 : packU cfg.bo cfg.fmtSize offset with
        | none =>
          rw [h3, optBind_none] at h
          exact absurd h (by simp)
        | some value =>
          rw [h3, optBind_some] at h
          cases h2 : pass1 cfg enc rest (offset + (data.length + 1) / 2 * 2) with
          | none =>
            rw [h2, optBind_none] at h
            exact absurd h (by simp)
          | some p =>
            obtain ⟨es0, off0⟩ := p
            rw [h2, optBind_some] at h
            simp only [optPureSome, Option.some.injEq, Prod.mk.injEq] at h
            obtain ⟨hes, -⟩ := h
            subst hes
            cases i with
            | zero =>
              refine ⟨data, ?_, ?_, ?_⟩
              · simpa [auxOffsetAt_zero] using h1
              · intro hdle
                omega
              · intro _
                refine ⟨rfl, rfl, rfl, rfl, ?_⟩
                simpa [auxOffsetAt_zero] using h3
            | succ i =>
              have hi' : i < rest.length := by simpa using hi
              have he' : i < es0.length := by simpa using he
              obtain ⟨d, hd1, hd2, hd3⟩ := ih _ es0 off0 h2 i hi' he'
              refine ⟨d, ?_, ?_, ?_⟩
              · rw [auxOffsetAt_succ_cons]
                simpa using hd1
              · intro hdle
                simpa using hd2 hdle
              · intro hdgt
                rw [auxOffsetAt_succ_cons]
                simpa using hd3 hdgt

theorem mapOpt_cons {α β : Type} (f : α → Option β) (a : α) (l : List α) :
    mapOpt f (a :: l) = (f a >>= fun b => mapOpt f l >>= fun bs => pure (b :: bs)) := rfl

theorem foldl2_spec (cfg : IFDCfg) :
    ∀ (entries : List DirEntry) (acc : List Nat),
      (entries.foldlM
        (fun acc e => do
          let t ← packU cfg.bo 2 e.tag
          let ty ← packU cfg.bo 2 e.typ
          let c ← packU cfg.bo cfg.fmtSize e.count
          pure (acc ++ t ++ ty ++ c ++ fmtS cfg.fmtSize e.value)) acc)
      = (mapOpt (entryBytes2 cfg) entries).map fun ts => acc ++ ts.flatten := by
  intro entries
  induction entries with
  | nil =>
    intro acc
    simp [mapOpt]
  | cons e es ih =>
    intro acc
    rw [List.foldlM_cons]
    cases ht : packU cfg.bo 2 e.tag with
    | none => simp [mapOpt, entryBytes2, ht, optBind_none]
    | some t =>
      cases hty : packU cfg.bo 2 e.typ with
      | none => simp [mapOpt, entryBytes2, ht, hty, optBind_none]
      | some ty =>
        cases hc : packU cfg.bo cfg.fmtSize e.count with
        | none => simp [mapOpt, entryBytes2, ht, hty, hc, optBind_none]
        | some c =>
          rw [optBind_some, optBind_some, optBind_some, optPureSome, optBind_some, ih]
          have hone : entryBytes2 cfg e = some (t ++ ty ++ c ++ fmtS cfg.fmtSize e.value) := by
            unfold entryBytes2
            rw [ht, optBind_some, hty, optBind_some, hc, optBind_some, optPureSome]
          rw [mapOpt_cons, hone, optBind_some]
          cases hm : mapOpt (entryBytes2 cfg) es with
          | none => simp [hm, optBind_none]
          | some ts => simp [hm, optBind_some, List.append_assoc]

theorem foldl3_spec :
    ∀ (entries : List DirEntry) (acc : List Nat),
      entries.foldl
        (fun acc e => acc ++ e.data ++ (if e.data.length % 2 = 1 then [0] else [])) acc
      = acc ++ (entries.map auxBlock).flatten := by
  intro entries
  induction entries with
  | nil =>
    intro acc
    simp
  | cons e es ih =>
    intro acc
    rw [List.foldl_cons, ih]
    simp [auxBlock, List.append_assoc]

theorem map_tag_set_same (entries : List DirEntry) (i : Nat) (e' : DirEntry)
    (hget : ∀ h : i < entries.length, e'.tag = (entries[i]).tag) :
    (entries.set i e').map DirEntry.tag = entries.map DirEntry.tag := by
  induction entries generalizing i with
  | nil => simp
  | cons x xs ih =>
    cases i with
    | zero =>
      simp only [List.set_cons_zero, List.map_cons]
      rw [hget (by simp)]
      simp
    | succ i =>
      simp only [List.set_cons_succ, List.map_cons]
      rw [ih i fun h => hget (by simpa using Nat.succ_lt_succ h)]

theorem tobytes_tail_spec (cfg : IFDCfg) (head : List Nat) (entries1 : List DirEntry)
    (bs : List Nat)
    (h : (do
        let result ← entries1.foldlM
          (fun acc e => do
            let t ← packU cfg.bo 2 e.tag
            let ty ← packU cfg.bo 2 e.typ
            let c ← packU cfg.bo cfg.fmtSize e.count
            pure (acc ++ t ++ ty ++ c ++ fmtS cfg.fmtSize e.value)) head
        let z ← packU cfg.bo cfg.fmtSize 0
        pure (entries1.foldl
          (fun acc e => acc ++ e.data ++ (if e.data.length % 2 = 1 then [0] else []))
          (result ++ z))) = some bs) :
    ∃ (z : List Nat) (table : List (List Nat)),
      packU cfg.bo cfg.fmtSize 0 = some z ∧
      mapOpt (entryBytes2 cfg) entries1 = some table ∧
      bs = head ++ table.flatten ++ z ++ (entries1.map auxBlock).flatten := by
  rw [foldl2_spec] at h
  cases hm : mapOpt (entryBytes2 cfg) entries1 with
  | none =>
    rw [hm] at h
    exact absurd h (by simp)
  | some table =>
    rw [hm] at h
    simp only [Option.map_some', optBind_some] at h
    cases hz : packU cfg.bo cfg.fmtSize 0 with
    | none =>
      rw [hz, optBind_none] at h
      exact absurd h (by simp)
    | some z =>
      rw [hz, optBind_some] at h
      simp only [optPureSome, Option.some.injEq] at h
      refine ⟨z, table, rfl, rfl, ?_⟩
      rw [← h, foldl3_spec]

/-- Inversion of the whole of `tobytesBody`: a successful serialization
splits into the entry-count header, the packed entry table (in the order
of the pass-1 entries, whose tags are the sorted store keys), the zero
next-IFD pointer, and the word-padded auxiliary blocks in the same entry
order. -/
theorem tobytesBody_decompose (tl : TagLookup) (cfg : IFDCfg)
    (subT : Store → Nat → Option (List Nat)) (store : Store) (offset : Nat)
    (hnd : (store.map fun e => e.1).Nodup) (bs : List Nat)
    (h : tobytesBody tl cfg subT store offset = some bs) :
    ∃ (head : List Nat) (entries : List DirEntry) (z : List Nat) (table : List (List Nat)),
      packU cfg.bo cfg.countSize store.length = some head ∧
      packU cfg.bo cfg.fmtSize 0 = some z ∧
      entries.map DirEntry.tag = (sortStore store).map (fun x => x.1) ∧
      (entries.map DirEntry.tag).Pairwise (· < ·) ∧
      mapOpt (entryBytes2 cfg) entries = some table ∧
      bs = head ++ table.flatten ++ z ++ (entries.map auxBlock).flatten := by
  unfold tobytesBody at h
  cases hh : packU cfg.bo cfg.countSize store.length with
  | none =>
    rw [hh, optBind_none] at h
    exact absurd h (by simp)
  | some head =>
    rw [hh, optBind_some] at h
    cases hp : pass1 cfg (encodeOne tl cfg subT) (sortStore store)
        (offset + head.length + store.length * cfg.entrySize + cfg.fmtSize) with
    | none =>
      rw [hp, optBind_none] at h
      exact absurd h (by simp)
    | some p =>
      obtain ⟨entries0, offEnd⟩ := p
      rw [hp] at h
      simp only [optBind_some] at h
      have htags0 : entries0.map DirEntry.tag = (sortStore store).map fun x => x.1 :=
        (pass1_shape cfg _ _ _ _ _ hp).1
      have hlt0 : (entries0.map DirEntry.tag).Pairwise (· < ·) := by
        rw [htags0]
        exact sortStore_keys_lt store hnd
      split at h
      · -- no STRIPOFFSETS entry: the table is serialized unchanged
        obtain ⟨z, table, hz, hm, hbs⟩ := tobytes_tail_spec cfg head entries0 bs h
        exact ⟨head, entries0, z, table, rfl, hz, htags0, hlt0, hm, hbs⟩
      · next i _ =>
        split at h
        · exact absurd h (by simp)
        · next e hg =>
          have htageq : ∀ e' : DirEntry, e'.tag = e.tag →
              (entries0.set i e').map DirEntry.tag = entries0.map DirEntry.tag := by
            intro e' he'
            apply map_tag_set_same
            intro hlen
            have heg : entries0[i] = e := by
              rw [List.getElem?_eq_getElem hlen] at hg
              exact (Option.some.injEq _ _).mp hg
            rw [heg, he']
          split at h
          · cases hl : loadDispatchInts cfg.bo e.typ e.data with
            | none =>
              rw [hl, optBind_none] at h
              exact absurd h (by simp)
            | some vals =>
              rw [hl] at h
              simp only [optBind_some] at h
              cases hw : writeDispatch cfg.bo e.typ
                  (vals.map fun v => PyV.int (v + (offEnd : Int))) with
              | none =>
                rw [hw, optBind_none] at h
                exact absurd h (by simp)
              | some data =>
                rw [hw] at h
                simp only [optBind_some, optPureSome] at h
                obtain ⟨z, table, hz, hm, hbs⟩ :=
                  tobytes_tail_spec cfg head (entries0.set i { e with data := data }) bs h
                refine ⟨head, entries0.set i { e with data := data }, z, table,
                  rfl, hz, ?_, ?_, hm, hbs⟩
                · rw [htageq { e with data := data } rfl]
                  exact htags0
                · rw [htageq { e with data := data } rfl]
                  exact hlt0
          · cases hv : packU cfg.bo cfg.fmtSize (unpackU cfg.bo e.value + offEnd) with
            | none =>
              rw [hv, optBind_none] at h
              exact absurd h (by simp)
            | some value =>
              rw [hv] at h
              simp only [optBind_some, optPureSome] at h
              obtain ⟨z, table, hz, hm, hbs⟩ :=
                tobytes_tail_spec cfg head (entries0.set i { e with value := value }) bs h
              refine ⟨head, entries0.set i { e with value := value }, z, table,
                rfl, hz, ?_, ?_, hm, hbs⟩
              · rw [htageq { e with value := value } rfl]
                exact htags0
              · rw [htageq { e with value := value } rfl]
                exact hlt0

theorem tobytesBody_congr (tl : TagLookup) (cfg : IFDCfg)
    (subT : Store → Nat → Option (List Nat)) (s1 s2 : Store)
    (hlen : s1.length = s2.length) (hsort : sortStore s1 = sortStore s2)
    (offset : Nat) :
    tobytesBody tl cfg subT s1 offset = tobytesBody tl cfg subT s2 offset := by
  unfold tobytesBody
  rw [hlen, hsort]

/-- **C4**: a successful `tobytes` serialization consists of the
entry-count header, then the entry table whose entries carry exactly the
sorted store's tags in strictly ascending order, then the zero next-IFD
pointer, then the auxiliary blocks of those same entries in the same
(ascending-tag) order; and any reordering of the same tag/value
assignments (any permutation of the store) serializes to the same
bytes. -/
theorem claim_C4 (tl : TagLookup) (cfg : IFDCfg) (fuel : Nat)
    (store store2 : Store) (offset : Nat) (bs : List Nat)
    (hnd : (store.map fun e => e.1).Nodup)
    (h : tobytes tl cfg fuel store offset = some bs)
    (hperm : store.Perm store2) :
    (∃ (head : List Nat) (entries : List DirEntry) (z : List Nat)
        (table : List (List Nat)),
      packU cfg.bo cfg.countSize store.length = some head ∧
      packU cfg.bo cfg.fmtSize 0 = some z ∧
      entries.map DirEntry.tag = (sortStore store).map (fun x => x.1) ∧
      (entries.map DirEntry.tag).Pairwise (· < ·) ∧
      mapOpt (entryBytes2 cfg) entries = some table ∧
      bs = head ++ table.flatten ++ z ++ (entries.map auxBlock).flatten) ∧
    tobytes tl cfg fuel store2 offset = some bs := by
  constructor
  · cases fuel with
    | zero => exact tobytesBody_decompose tl cfg _ store offset hnd bs h
    | succ n => exact tobytesBody_decompose tl cfg _ store offset hnd bs h
  · have hcongr : tobytes tl cfg fuel store2 offset = tobytes tl cfg fuel store offset := by
      cases fuel with
      | zero =>
        exact tobytesBody_congr tl cfg _ store2 store hperm.length_eq.symm
          (sortStore_eq_of_perm store store2 hperm hnd).symm offset
      | succ n =>
        exact tobytesBody_congr tl cfg _ store2 store hperm.length_eq.symm
          (sortStore_eq_of_perm store store2 hperm hnd).symm offset
    rw [hcongr, h]

theorem claim_C4_witness :
    (∃ (head : List Nat) (entries : List DirEntry) (z : List Nat)
        (table : List (List Nat)),
      packU ByteOrder.le 2 2 = some head ∧
      packU ByteOrder.le 4 0 = some z ∧
      entries.map DirEntry.tag =
        (sortStore [(257, SHORT, PyV.int 3), (256, SHORT, PyV.int 2)]).map (fun x => x.1) ∧
      (entries.map DirEntry.tag).Pairwise (· < ·) ∧
      mapOpt (entryBytes2 ⟨.le, false⟩) entries = some table ∧
      [2, 0, 0, 1, 3, 0, 1, 0, 0, 0, 2, 0, 0, 0,
        1, 1, 3, 0, 1, 0, 0, 0, 3, 0, 0, 0, 0, 0, 0, 0]
        = head ++ table.flatten ++ z ++ (entries.map auxBlock).flatten) ∧
    tobytes (fun _ _ => (⟨none, none, []⟩ : TagInfo)) ⟨.le, false⟩ 0
      [(256, SHORT, PyV.int 2), (257, SHORT, PyV.int 3)] 8 =
      some [2, 0, 0, 1, 3, 0, 1, 0, 0, 0, 2, 0, 0, 0,
        1, 1, 3, 0, 1, 0, 0, 0, 3, 0, 0, 0, 0, 0, 0, 0] :=
  claim_C4 (fun _ _ => (⟨none, none, []⟩ : TagInfo)) ⟨.le, false⟩ 0
    [(257, SHORT, PyV.int 3), (256, SHORT, PyV.int 2)]
    [(256, SHORT, PyV.int 2), (257, SHORT, PyV.int 3)] 8
    [2, 0, 0, 1, 3, 0, 1, 0, 0, 0, 2, 0, 0, 0,
      1, 1, 3, 0, 1, 0, 0, 0, 3, 0, 0, 0, 0, 0, 0, 0]
    (by decide) rfl
    (List.Perm.swap (256, SHORT, PyV.int 2) (257, SHORT, PyV.int 3) [])

/-- **C5**: in pass 1 of `tobytes`, the inline slot is 4 bytes classic /
8 bytes BigTIFF; an encoded payload of at most that size is stored in the
entry's value slot left-aligned and NUL-padded (`ljust`) with no auxiliary
data (its auxiliary block is empty), while a longer payload leaves the
entry carrying the packed running auxiliary offset in its value slot and
the payload as its auxiliary block, padded with one NUL byte when its
length is odd so the stored block length is always even. -/
theorem claim_C5 (tl : TagLookup) (cfg : IFDCfg)
    (subT : Store → Nat → Option (List Nat)) (store : Store) (offset : Nat)
    (entries : List DirEntry) (offEnd : Nat) (i : Nat)
    (h : pass1 cfg (encodeOne tl cfg subT) store offset = some (entries, offEnd))
    (hi : i < store.length) (he : i < entries.length) :
    cfg.fmtSize = (if cfg.bigtiff then 8 else 4) ∧
    ∃ d, encodeOne tl cfg subT store[i].1 store[i].2.1 store[i].2.2
        (auxOffsetAt offset entries i) = some d ∧
      (d.length ≤ cfg.fmtSize →
        entries[i] = ⟨store[i].1, store[i].2.1,
          pass1count store[i].2.1 store[i].2.2 d, ljust d cfg.fmtSize, []⟩ ∧
        auxBlock entries[i] = []) ∧
      (cfg.fmtSize < d.length →
        packU cfg.bo cfg.fmtSize (auxOffsetAt offset entries i)
          = some (entries[i]).value ∧
        (entries[i]).data = d ∧
        auxBlock entries[i] = d ++ (if d.length % 2 = 1 then [0] else []) ∧
        (auxBlock entries[i]).length % 2 = 0) := by
  refine ⟨rfl, ?_⟩
  obtain ⟨d, hd1, hd2, hd3⟩ :=
    pass1_spec cfg (encodeOne tl cfg subT) store offset entries offEnd h i hi he
  refine ⟨d, hd1, ?_, ?_⟩
  · intro hle
    have h2 := hd2 hle
    refine ⟨h2, ?_⟩
    rw [h2]
    simp [auxBlock]
  · intro hgt
    obtain ⟨ht, hty, hc, hdata, hval⟩ := hd3 hgt
    refine ⟨hval, hdata, ?_, ?_⟩
    · rw [auxBlock, hdata]
    · by_cases hpar : d.length % 2 = 1
      · rw [auxBlock, hdata, if_pos hpar]
        simp only [List.length_append, List.length_cons, List.length_nil]
        omega
      · rw [auxBlock, hdata, if_neg hpar]
        simp only [List.length_append, List.length_nil]
        omega

theorem claim_C5_witness :
    (⟨ByteOrder.le, false⟩ : IFDCfg).fmtSize = 4 ∧
    ∃ d, encodeOne (fun _ _ => (⟨none, none, []⟩ : TagInfo)) ⟨ByteOrder.le, false⟩
        (fun _ _ => none) 258 3 (PyV.tup [PyV.int 1, PyV.int 2, PyV.int 3]) 100
        = some d ∧
      (d.length ≤ 4 →
        (⟨258, 3, 3, [100, 0, 0, 0], [1, 0, 2, 0, 3, 0]⟩ : DirEntry) =
          ⟨258, 3, pass1count 3 (PyV.tup [PyV.int 1, PyV.int 2, PyV.int 3]) d,
            ljust d 4, []⟩ ∧
        auxBlock ⟨258, 3, 3, [100, 0, 0, 0], [1, 0, 2, 0, 3, 0]⟩ = []) ∧
      (4 < d.length →
        packU ByteOrder.le 4 100 = some [100, 0, 0, 0] ∧
        ([1, 0, 2, 0, 3, 0] : List Nat) = d ∧
        auxBlock ⟨258, 3, 3, [100, 0, 0, 0], [1, 0, 2, 0, 3, 0]⟩ =
          d ++ (if d.length % 2 = 1 then [0] else []) ∧
        (auxBlock ⟨258, 3, 3, [100, 0, 0, 0], [1, 0, 2, 0, 3, 0]⟩).length % 2 = 0) :=
  claim_C5 (fun _ _ => (⟨none, none, []⟩ : TagInfo)) ⟨ByteOrder.le, false⟩
    (fun _ _ => none) [(258, 3, PyV.tup [PyV.int 1, PyV.int 2, PyV.int 3])] 100
    [⟨258, 3, 3, [100, 0, 0, 0], [1, 0, 2, 0, 3, 0]⟩] 106 0 rfl (by decide) (by decide)

end Tiff
